import Mathlib

/-!
A shallow embedding of the Sudoku constraint-propagation solver in
`src/sudoku.py` (functions `backtracking`, `Sudoku.__init__`,
`Sudoku.is_incomplete`, `Sudoku.is_solved`, `Sudoku.make_move`,
`Sudoku.make_moves`, `Sudoku.ac3`, `Sudoku.expand_guess_tree`,
`Sudoku.solve`), together with theorems settling the specification
claims about it.

Representation choices:
* The Python board is a dict from the 81 keys "A1".."I9" to ints.
  Keys are embedded as row-major indices `0..80` (`"A1" ↦ 0`, `"I9" ↦ 80`);
  the lexicographic order on the two-character strings coincides with the
  numeric order on the indices.  The board dict (81 entries, fixed key
  set) is embedded as a `List Int` of length 81 in row-major key order.
* `self.domain` is a Python dict from keys to candidate lists; it is
  embedded as an association list in insertion order (entries are only
  ever deleted, never inserted, after construction, exactly as in the
  source).  Updates and deletions affect the first matching entry,
  matching dict semantics (a dict never holds a duplicated key).
* `self.unresolved` is a Python list of keys, embedded as `List Nat`;
  `list.remove` is `List.erase` (first occurrence).
* `self.guess_list` is rebuilt from scratch at the start of every
  `expand_guess_tree` call and is consumed only inside that call, so it
  is kept local instead of being stored in the state.
* The two `while` loops (in `make_moves` and `ac3`) and the recursion of
  `expand_guess_tree` are embedded with explicit fuel.  `make_moves` and
  `ac3` receive fuel computed from the state that is proved sufficient
  (the domains shrink at every repeated iteration); `expand_guess_tree`
  receives fuel 82, which dominates its recursion depth bound: each
  recursive call is made on a state whose unresolved set lost at least
  the selected key, and there are only 81 cells.
-/

/-- Row-major cell index of row `r`, column `c` (`r, c ∈ 0..8`). -/
def cellIx (r c : Nat) : Nat := 9 * r + c

/-- The nine row constraint groups (`self.constraints_row`). -/
def constraintsRow : List (List Nat) :=
  (List.range 9).map (fun r => (List.range 9).map (fun c => cellIx r c))

/-- The nine column constraint groups (`self.constraints_col`). -/
def constraintsCol : List (List Nat) :=
  (List.range 9).map (fun c => (List.range 9).map (fun r => cellIx r c))

/-- The nine 3x3 box constraint groups (`self.constraints_box`). -/
def constraintsBox : List (List Nat) :=
  ((List.range 3).map (fun rb => (List.range 3).map (fun cb =>
    ((List.range 3).map (fun r => (List.range 3).map (fun c =>
      cellIx (3 * rb + r) (3 * cb + c)))).flatten))).flatten

/-- All 27 constraint groups, in the iteration order of
`self.constraints_lists_all = [rows, cols, boxes]`. -/
def constraintsAll : List (List Nat) :=
  constraintsRow ++ constraintsCol ++ constraintsBox

/-- `board[k]` for a board stored as a row-major list of 81 values. -/
def boardGet (b : List Int) (k : Nat) : Int := b.getD k 0

/-- Lookup in the domain dict (first matching entry, dict semantics). -/
def domFind : List (Nat × List Int) → Nat → Option (List Int)
  | [], _ => none
  | p :: rest, k => if p.1 = k then some p.2 else domFind rest k

/-- `self.domain[key]` with a default for the impossible missing-key case
(the source would raise `KeyError`; all call sites are proved to have the
entry present in reachable states). -/
def domListD (d : List (Nat × List Int)) (k : Nat) : List Int :=
  (domFind d k).getD []

/-- Overwrite the (first) entry of `key` in the domain dict. -/
def domSet : List (Nat × List Int) → Nat → List Int → List (Nat × List Int)
  | [], _, _ => []
  | p :: rest, k, v => if p.1 = k then (k, v) :: rest else p :: domSet rest k v

/-- `del self.domain[key]` (removes the first entry of `key`). -/
def domErase : List (Nat × List Int) → Nat → List (Nat × List Int)
  | [], _ => []
  | p :: rest, k => if p.1 = k then rest else p :: domErase rest k

/-- Solver state: the `(board, domain, unresolved)` triple of a `Sudoku`
object (`self.board`, `self.domain`, `self.unresolved`). -/
structure SState where
  board : List Int
  domain : List (Nat × List Int)
  unresolved : List Nat
deriving Repr, DecidableEq

/-- `Sudoku.__init__`: store the board and give every empty cell the full
candidate list `[1..9]`, recording it as unresolved (row-major key
order). -/
def mkSudoku (board : List Int) : SState :=
  { board := board
    domain := (List.range 81).filterMap (fun k =>
      if boardGet board k = 0 then some (k, [1, 2, 3, 4, 5, 6, 7, 8, 9]) else none)
    unresolved := (List.range 81).filter (fun k => boardGet board k = 0) }

/-- `Sudoku.is_incomplete`: the board contains a zero. -/
def isIncomplete (s : SState) : Bool := s.board.contains 0

/-- The duplicate scan of one constraint group in `Sudoku.is_solved`
(the `seen` set loop): true iff no value repeats. -/
def noDups : List Int → Bool
  | [] => true
  | v :: rest => !(rest.contains v) && noDups rest

/-- `Sudoku.is_solved` as a function of the board alone. -/
def isSolvedB (b : List Int) : Bool :=
  !(b.contains 0) && !(b.contains (-1)) &&
    constraintsAll.all (fun g => noDups (g.map (boardGet b)))

/-- `Sudoku.is_solved`. -/
def isSolved (s : SState) : Bool := isSolvedB s.board

/-- The scan of one constraint group in `Sudoku.make_move`: true iff some
cell of the group currently holds `value`. -/
def mmHit (b : List Int) (value : Int) : List Nat → Bool
  | [] => false
  | k :: rest => if boardGet b k = value then true else mmHit b value rest

/-- The outer loop of `Sudoku.make_move`: scan every constraint group
containing `key`; return `-1` on the first conflict, else `value`. -/
def mmGroups (b : List Int) (key : Nat) (value : Int) : List (List Nat) → Int
  | [] => value
  | g :: rest =>
    if g.contains key && mmHit b value g then -1 else mmGroups b key value rest

/-- `Sudoku.make_move(key, value)`: re-validate `value` against every
group containing `key`; `-1` signals a violated constraint. -/
def makeMove (b : List Int) (key : Nat) (value : Int) : Int :=
  mmGroups b key value constraintsAll

/-- The commit in `Sudoku.make_moves` when a domain collapses to one
candidate `d0`: write `make_move(key, d0)` to the board, drop `key` from
`unresolved` and from `domain`. -/
def commitCell (s : SState) (key : Nat) (d0 : Int) : SState :=
  { board := s.board.set key (makeMove s.board key d0)
    domain := domErase s.domain key
    unresolved := s.unresolved.erase key }

/-- One pass of the `for k in constraint_list` loop inside
`Sudoku.make_moves`, processing cell `key`.  Returns
`(state, removedAny, committed)`; `removedAny` is the accumulated
`continue_loop`/`has_changes` flag of this pass, `committed` is true iff
the pass ended in the `len(domain[key]) == 1` commit (which in the
source returns `False` from `make_moves` immediately). -/
def mmPass (s : SState) (key : Nat) : List Nat → Bool → SState × Bool × Bool
  | [], removed => (s, removed, false)
  | k :: rest, removed =>
    let v := boardGet s.board k
    let dom := domListD s.domain key
    if v ≠ 0 ∧ v ∈ dom then
      let dom1 := dom.erase v
      let s1 : SState := { s with domain := domSet s.domain key dom1 }
      if dom1.length = 1 then
        (commitCell s1 key (dom1.headD 0), true, true)
      else
        mmPass s1 key rest true
    else
      mmPass s key rest removed

/-- The `while continue_loop` loop of `Sudoku.make_moves`, with fuel.
Returns the final state and the value `make_moves` returns
(`has_changes`, or `False` after a commit). -/
def mmWhile : Nat → SState → Nat → List Nat → Bool → SState × Bool
  | 0, s, _, _, hc => (s, hc)
  | fuel + 1, s, key, g, hc =>
    let r := mmPass s key g false
    if r.2.2 then (r.1, false)
    else if r.2.1 then mmWhile fuel r.1 key g true
    else (r.1, hc)

/-- `Sudoku.make_moves(key, constraint_list)`.  The fuel
`|domain[key]| + 1` dominates the loop: every repeated iteration removed
at least one candidate from `domain[key]`. -/
def makeMoves (s : SState) (key : Nat) (g : List Nat) : SState × Bool :=
  mmWhile ((domListD s.domain key).length + 1) s key g false

/-- The `for key in constraint_list` loop of one `ac3` sweep over one
group: run `make_moves` for each unresolved key, or-ing the result into
`has_changes`.  Python's `or` short-circuits, so once `has_changes` is
true the remaining `make_moves` calls of the sweep are skipped. -/
def sweepKeys (g : List Nat) : SState → Bool → List Nat → SState × Bool
  | s, hc, [] => (s, hc)
  | s, hc, k :: rest =>
    if s.unresolved.contains k then
      if hc then sweepKeys g s true rest
      else
        let r := makeMoves s k g
        sweepKeys g r.1 r.2 rest
    else sweepKeys g s hc rest

/-- One full `while has_changes` iteration of `Sudoku.ac3`: visit every
group of every constraint family in order. -/
def sweepGroups : SState → Bool → List (List Nat) → SState × Bool
  | s, hc, [] => (s, hc)
  | s, hc, g :: rest =>
    let r := sweepKeys g s hc g
    sweepGroups r.1 r.2 rest

/-- One sweep of `Sudoku.ac3` (`has_changes` starts false). -/
def sweep (s : SState) : SState × Bool := sweepGroups s false constraintsAll

/-- The `while has_changes` loop of `Sudoku.ac3`, with fuel. -/
def ac3Fuel : Nat → SState → SState
  | 0, s => s
  | fuel + 1, s =>
    let r := sweep s
    if r.2 then ac3Fuel fuel r.1 else r.1

/-- Total number of stored candidates — the termination measure of `ac3`
(every sweep that reports a change removed at least one candidate). -/
def domTotal (s : SState) : Nat :=
  s.domain.foldr (fun p a => p.2.length + a) 0

/-- `Sudoku.ac3()`: sweep until a sweep reports no change.  The fuel
`domTotal s + 1` is proved sufficient (`ac3Fuel_eq_ac3`). -/
def ac3 (s : SState) : SState := ac3Fuel (domTotal s + 1) s

/-- The guess list of `Sudoku.expand_guess_tree`:
`[(len(value), key) for key, value in self.domain.items()]`. -/
def guessList (s : SState) : List (Nat × Nat) :=
  s.domain.map (fun p => (p.2.length, p.1))

/-- Python tuple comparison `(l1, k1) <= (l2, k2)` on `(int, str)`
pairs; the string order on the keys "A1".."I9" is their row-major index
order. -/
def guessLe (a b : Nat × Nat) : Bool :=
  a.1 < b.1 || (a.1 = b.1 && a.2 ≤ b.2)

/-- The tuple comparison as a relation, for sorting. -/
def guessRel (a b : Nat × Nat) : Prop := guessLe a b = true

instance guessRelDec : DecidableRel guessRel := fun a b => by
  unfold guessRel
  infer_instance

/-- `self.guess_list.sort()`: Python's stable sort by `(len, key)`.  The
comparison is a total order (keys are distinct), so any correct sort
produces the same list; a structurally recursive insertion sort keeps
the definition evaluable. -/
def sortedGuessList (s : SState) : List (Nat × Nat) :=
  List.insertionSort guessRel (guessList s)

/-- Deletion of the selected key from the frontier in
`expand_guess_tree` (`del self.domain[key]`;
`self.unresolved.remove(key)`). -/
def removeKey (s : SState) (key : Nat) : SState :=
  { s with domain := domErase s.domain key
           unresolved := s.unresolved.erase key }

/-- `p.board[key] = value` on a branch copy. -/
def setCell (s : SState) (key : Nat) (v : Int) : SState :=
  { s with board := s.board.set key v }

/-- The `for value in values_list` loop of `Sudoku.expand_guess_tree`:
copy the state, assign the candidate, run `ac3`, return the first branch
that is solved (directly or through the recursive call `rec`). -/
def tryVals (rec : SState → Option SState) (s0 : SState) (key : Nat) :
    List Int → Option SState
  | [] => none
  | v :: vs =>
    let p := ac3 (setCell s0 key v)
    if isSolved p then some p
    else if isIncomplete p then
      match rec p with
      | some q => some q
      | none => tryVals rec s0 key vs
    else tryVals rec s0 key vs

/-- `Sudoku.expand_guess_tree()`, with fuel for the recursion.  The
`[]` case of the sorted guess list corresponds to the unguarded
`self.guess_list[0]` of the source, which would raise `IndexError`
there; it is proved unreachable for the states the solver calls this
on. -/
def expandGT : Nat → SState → Option SState
  | 0, _ => none
  | fuel + 1, s =>
    match sortedGuessList s with
    | [] => none
    | (_, key) :: _ =>
      tryVals (expandGT fuel) (removeKey s key) key (domListD s.domain key)

/-- `Sudoku.expand_guess_tree()` at top level.  Fuel 82 dominates the
recursion depth: each recursive call is on a state with strictly fewer
unresolved cells, of which there are at most 81. -/
def expandGuessTree (s : SState) : Option SState := expandGT 82 s

/-- `Sudoku.solve()`.  The second component is the final `self`, whose
board is the caller's board object: `Sudoku.__init__` stores the board
dict by reference, so `ac3`'s in-place commits are visible to the caller
of `backtracking` even when `solve` fails. -/
def solveS (s : SState) : Option SState × SState :=
  let s1 := ac3 s
  if isSolved s1 then (some s1, s1)
  else if isIncomplete s1 then (expandGuessTree s1, s1)
  else (none, s1)

/-- `backtracking(board)`: on success the solved board, otherwise the
input board object — which `solve` has mutated in place through the
top-level `ac3` run. -/
def backtracking (board : List Int) : List Int :=
  let r := solveS (mkSudoku board)
  match r.1 with
  | some s => s.board
  | none => r.2.board

/-- Does the board hold the invalid sentinel anywhere? -/
def hasInvalid (s : SState) : Bool := s.board.contains (-1)

/-- The fixpoint property claimed for `ac3`: no unresolved cell's domain
contains a digit currently assigned to another cell of any of its
groups. -/
def acFixpoint (s : SState) : Bool :=
  s.unresolved.all (fun k =>
    constraintsAll.all (fun g =>
      !(g.contains k) ||
      g.all (fun k2 =>
        k2 = k || boardGet s.board k2 = 0 ||
        !((domListD s.domain k).contains (boardGet s.board k2)))))

/-- Well-formedness of a solver state: the invariants of the data model
(board is the full 81-cell dict; `unresolved` lists exactly the empty
cells, without repetition; `domain` has exactly the unresolved keys in
the same order; every candidate list holds distinct digits `1..9` and at
least two of them — a list that shrinks to one candidate is committed on
the spot and removed). -/
structure WF (s : SState) : Prop where
  len81 : s.board.length = 81
  ures : ∀ k, k ∈ s.unresolved ↔ k < 81 ∧ boardGet s.board k = 0
  unodup : s.unresolved.Nodup
  domkeys : s.domain.map Prod.fst = s.unresolved
  dombound : ∀ p ∈ s.domain, ∀ v ∈ p.2, 1 ≤ v ∧ v ≤ 9
  domnodup : ∀ p ∈ s.domain, p.2.Nodup
  domlen : ∀ p ∈ s.domain, 2 ≤ p.2.length

/-- The solver states the program actually operates on: the initial
state built by `Sudoku.__init__` from an 81-cell board, the state after
any `ac3` run, and every branch state built by `expand_guess_tree`
(select the head of the sorted guess list, delete it from the frontier,
copy, and assign one of its candidates). -/
inductive Reach : SState → Prop
  | init (b : List Int) (h : b.length = 81) : Reach (mkSudoku b)
  | prop (s : SState) (h : Reach s) : Reach (ac3 s)
  | branch (s : SState) (n key : Nat) (rest : List (Nat × Nat)) (v : Int)
      (h : Reach s) (hsel : sortedGuessList s = (n, key) :: rest)
      (hv : v ∈ domListD s.domain key) :
      Reach (setCell (removeKey s key) key v)

/-- Concrete board: a fully-given grid (cyclically valid) with cell A1
blanked and cell C1 changed to `1`, so that propagation commits the
sentinel `-1` into A1 and the solve fails with no empty cell left. -/
def bInval : List Int :=
  [0, 2, 3, 4, 5, 6, 7, 8, 9,
   4, 5, 6, 7, 8, 9, 1, 2, 3,
   1, 8, 9, 1, 2, 3, 4, 5, 6,
   2, 3, 4, 5, 6, 7, 8, 9, 1,
   5, 6, 7, 8, 9, 1, 2, 3, 4,
   8, 9, 1, 2, 3, 4, 5, 6, 7,
   3, 4, 5, 6, 7, 8, 9, 1, 2,
   6, 7, 8, 9, 1, 2, 3, 4, 5,
   9, 1, 2, 3, 4, 5, 6, 7, 8]

/-- Concrete board: unsolvable (the duplicated `9`s), with two empty
cells A1, A2 whose domains stabilise at `{1, 2}`; propagation never
writes to the board and the whole search fails quickly. -/
def bStable : List Int :=
  [0, 0, 3, 4, 5, 6, 7, 8, 9,
   3, 4, 9, 9, 9, 9, 9, 9, 9,
   4, 5, 9, 9, 9, 9, 9, 9, 9,
   9, 9, 9, 9, 9, 9, 9, 9, 9,
   9, 9, 9, 9, 9, 9, 9, 9, 9,
   9, 9, 9, 9, 9, 9, 9, 9, 9,
   9, 9, 9, 9, 9, 9, 9, 9, 9,
   9, 9, 9, 9, 9, 9, 9, 9, 9,
   9, 9, 9, 9, 9, 9, 9, 9, 9]

/-- Concrete board on which `ac3` terminates away from the claimed
fixpoint: in its final sweep A1 collapses to `1` and then B2 collapses
to `2` (both commits report no change to the sweep flag), while B1 —
whose pairs were scanned earlier in that sweep — stays unresolved with
the now-assigned `2` still in its domain. -/
def bNoFix : List Int :=
  [0, 3, 4, 2, 6, 7, 8, 9, 2,
   0, 0, 5, 3, 4, 6, 7, 8, 6,
   3, 6, 7, 9, 9, 9, 9, 9, 9,
   4, 9, 9, 9, 9, 9, 9, 9, 9,
   6, 3, 9, 9, 9, 9, 9, 9, 9,
   7, 4, 9, 9, 9, 9, 9, 9, 9,
   8, 5, 9, 9, 9, 9, 9, 9, 9,
   3, 6, 9, 9, 9, 9, 9, 9, 9,
   4, 7, 9, 9, 9, 9, 9, 9, 9]

/-- Concrete board whose propagation writes `-1` into A1 while F4 and F5
remain empty: the post-propagation state holds the invalid sentinel and
is still incomplete, so `solve` proceeds to guessing. -/
def bInvalIncomplete : List Int :=
  [0, 2, 3, 4, 5, 6, 7, 8, 9,
   1, 9, 9, 9, 9, 9, 9, 9, 9,
   3, 9, 9, 9, 9, 9, 9, 9, 9,
   4, 9, 9, 9, 9, 9, 9, 9, 9,
   5, 9, 9, 9, 9, 9, 9, 9, 9,
   6, 3, 4, 0, 0, 5, 9, 7, 8,
   7, 9, 9, 9, 9, 9, 9, 9, 9,
   8, 9, 9, 9, 9, 9, 9, 9, 9,
   9, 9, 9, 9, 9, 9, 9, 9, 9]

/-- Concrete board: the classic cyclic grid, fully solved. -/
def bSolved : List Int :=
  [1, 2, 3, 4, 5, 6, 7, 8, 9,
   4, 5, 6, 7, 8, 9, 1, 2, 3,
   7, 8, 9, 1, 2, 3, 4, 5, 6,
   2, 3, 4, 5, 6, 7, 8, 9, 1,
   5, 6, 7, 8, 9, 1, 2, 3, 4,
   8, 9, 1, 2, 3, 4, 5, 6, 7,
   3, 4, 5, 6, 7, 8, 9, 1, 2,
   6, 7, 8, 9, 1, 2, 3, 4, 5,
   9, 1, 2, 3, 4, 5, 6, 7, 8]

/-- Concrete board: one empty cell (A1) in the cyclic grid, which the
first `make_moves` call commits to `1`. -/
def bOneHole : List Int :=
  [0, 2, 3, 4, 5, 6, 7, 8, 9,
   4, 5, 6, 7, 8, 9, 1, 2, 3,
   7, 8, 9, 1, 2, 3, 4, 5, 6,
   2, 3, 4, 5, 6, 7, 8, 9, 1,
   5, 6, 7, 8, 9, 1, 2, 3, 4,
   8, 9, 1, 2, 3, 4, 5, 6, 7,
   3, 4, 5, 6, 7, 8, 9, 1, 2,
   6, 7, 8, 9, 1, 2, 3, 4, 5,
   9, 1, 2, 3, 4, 5, 6, 7, 8]

/-- The condition under which `make_moves(key, g)` finds nothing to do:
no assigned value of group `g` is still a candidate of `key`. -/
def noViol (s : SState) (key : Nat) (g : List Nat) : Prop :=
  ∀ k ∈ g, boardGet s.board k = 0 ∨ boardGet s.board k ∉ domListD s.domain key

/-- Total candidate count of a domain dict. -/
def domSum (d : List (Nat × List Int)) : Nat :=
  d.foldr (fun p a => p.2.length + a) 0

theorem domTotal_eq_domSum (s : SState) : domTotal s = domSum s.domain := rfl

theorem domFind_isSome_iff (d : List (Nat × List Int)) (k : Nat) :
    (∃ l, domFind d k = some l) ↔ k ∈ d.map Prod.fst := by
  induction d with
  | nil => simp [domFind]
  | cons p rest ih =>
    by_cases h : p.1 = k
    · simp [domFind, h]
    · simp only [domFind, h, if_false, List.map_cons, List.mem_cons, ih]
      constructor
      · intro hx
        exact Or.inr hx
      · intro hx
        rcases hx with hx | hx
        · exact absurd hx.symm h
        · exact hx

theorem domFind_mem {d : List (Nat × List Int)} {k : Nat} {l : List Int}
    (h : domFind d k = some l) : (k, l) ∈ d := by
  induction d with
  | nil => simp [domFind] at h
  | cons p rest ih =>
    by_cases hp : p.1 = k
    · simp only [domFind, hp, if_true, Option.some.injEq] at h
      subst h
      have hpe : (k, p.2) = p := by
        cases p
        simp_all
      rw [hpe]
      exact List.mem_cons_self _ _
    · simp only [domFind, hp, if_false] at h
      exact List.mem_cons_of_mem _ (ih h)

theorem domFind_of_mem_nodup {d : List (Nat × List Int)} {k : Nat} {l : List Int}
    (hn : (d.map Prod.fst).Nodup) (h : (k, l) ∈ d) : domFind d k = some l := by
  induction d with
  | nil => simp at h
  | cons p rest ih =>
    simp only [List.map_cons, List.nodup_cons] at hn
    rcases List.mem_cons.mp h with h | h
    · subst h
      simp [domFind]
    · have hk : p.1 ≠ k := by
        intro he
        exact hn.1 (he ▸ (List.mem_map.mpr ⟨(k, l), h, rfl⟩))
      simp only [domFind, hk, if_false]
      exact ih hn.2 h

theorem domSet_map_fst (d : List (Nat × List Int)) (k : Nat) (v : List Int) :
    (domSet d k v).map Prod.fst = d.map Prod.fst := by
  induction d with
  | nil => rfl
  | cons p rest ih =>
    by_cases h : p.1 = k
    · simp [domSet, h]
    · simp [domSet, h, ih]

theorem domFind_domSet_ne (d : List (Nat × List Int)) {k k' : Nat} (v : List Int)
    (h : k' ≠ k) : domFind (domSet d k v) k' = domFind d k' := by
  induction d with
  | nil => rfl
  | cons p rest ih =>
    by_cases hp : p.1 = k
    · have : ¬ (k = k') := fun he => h he.symm
      simp [domSet, domFind, hp, this, hp ▸ this]
    · simp only [domSet, hp, if_false]
      by_cases hq : p.1 = k'
      · simp [domFind, hq]
      · simp [domFind, hq, ih]

theorem domFind_domSet_self {d : List (Nat × List Int)} {k : Nat} {l : List Int}
    (v : List Int) (h : domFind d k = some l) :
    domFind (domSet d k v) k = some v := by
  induction d with
  | nil => simp [domFind] at h
  | cons p rest ih =>
    by_cases hp : p.1 = k
    · simp [domSet, domFind, hp]
    · simp only [domFind, hp, if_false] at h
      simp [domSet, domFind, hp, ih h]

theorem domSet_of_find_none {d : List (Nat × List Int)} {k : Nat}
    (v : List Int) (h : domFind d k = none) : domSet d k v = d := by
  induction d with
  | nil => rfl
  | cons p rest ih =>
    by_cases hp : p.1 = k
    · simp [domFind, hp] at h
    · simp only [domFind, hp, if_false] at h
      simp [domSet, hp, ih h]

theorem mem_domSet {d : List (Nat × List Int)} {k : Nat} {v : List Int}
    {p : Nat × List Int} (h : p ∈ domSet d k v) : p ∈ d ∨ p = (k, v) := by
  induction d with
  | nil => simp [domSet] at h
  | cons q rest ih =>
    by_cases hq : q.1 = k
    · simp only [domSet, hq, if_true, List.mem_cons] at h
      rcases h with h | h
      · exact Or.inr h
      · exact Or.inl (List.mem_cons_of_mem _ h)
    · simp only [domSet, hq, if_false, List.mem_cons] at h
      rcases h with h | h
      · exact Or.inl (h ▸ List.mem_cons_self _ _)
      · rcases ih h with h | h
        · exact Or.inl (List.mem_cons_of_mem _ h)
        · exact Or.inr h

theorem domErase_map_fst (d : List (Nat × List Int)) (k : Nat) :
    (domErase d k).map Prod.fst = (d.map Prod.fst).erase k := by
  induction d with
  | nil => rfl
  | cons p rest ih =>
    by_cases h : p.1 = k
    · simp [domErase, h, List.erase_cons_head]
    · simp only [domErase, h, if_false, List.map_cons]
      rw [List.erase_cons_tail, ih]
      simp [h]

theorem mem_domErase {d : List (Nat × List Int)} {k : Nat}
    {p : Nat × List Int} (h : p ∈ domErase d k) : p ∈ d := by
  induction d with
  | nil => simp [domErase] at h
  | cons q rest ih =>
    by_cases hq : q.1 = k
    · simp only [domErase, hq, if_true] at h
      exact List.mem_cons_of_mem _ h
    · simp only [domErase, hq, if_false, List.mem_cons] at h
      rcases h with h | h
      · exact h ▸ List.mem_cons_self _ _
      · exact List.mem_cons_of_mem _ (ih h)

theorem domFind_domErase_ne (d : List (Nat × List Int)) {k k' : Nat}
    (h : k' ≠ k) : domFind (domErase d k) k' = domFind d k' := by
  induction d with
  | nil => rfl
  | cons p rest ih =>
    by_cases hp : p.1 = k
    · have hpk' : ¬ p.1 = k' := fun he => h (he ▸ hp)
      simp only [domErase, hp, if_true, domFind, hpk', if_false]
      rw [if_neg (fun he => h he.symm)]
    · by_cases hq : p.1 = k'
      · simp only [domErase, hp, if_false, domFind, hq, if_true]
        rw [if_neg h]
        simp [domFind, hq]
      · simp only [domErase, hp, if_false, domFind, hq, if_false]
        exact ih

theorem domFind_domErase_self {d : List (Nat × List Int)} {k : Nat}
    (hn : (d.map Prod.fst).Nodup) : domFind (domErase d k) k = none := by
  induction d with
  | nil => rfl
  | cons p rest ih =>
    simp only [List.map_cons, List.nodup_cons] at hn
    by_cases hp : p.1 = k
    · simp only [domErase, hp, if_true]
      rcases hx : domFind rest k with _ | l
      · rfl
      · exact absurd (hp ▸ (List.mem_map.mpr ⟨(k, l), domFind_mem hx, rfl⟩)) hn.1
    · simp [domErase, domFind, hp, ih hn.2]

theorem domSum_domSet_lt {d : List (Nat × List Int)} {k : Nat} {l v : List Int}
    (h : domFind d k = some l) (hv : v.length < l.length) :
    domSum (domSet d k v) < domSum d := by
  induction d with
  | nil => simp [domFind] at h
  | cons p rest ih =>
    by_cases hp : p.1 = k
    · simp only [domFind, hp, if_true, Option.some.injEq] at h
      subst h
      simp only [domSet, hp, if_true, domSum, List.foldr_cons]
      omega
    · simp only [domFind, hp, if_false] at h
      simp only [domSet, hp, if_false, domSum, List.foldr_cons]
      have := ih h
      simp only [domSum] at this
      omega

theorem domSum_domErase_le (d : List (Nat × List Int)) (k : Nat) :
    domSum (domErase d k) ≤ domSum d := by
  induction d with
  | nil => exact Nat.le_refl _
  | cons p rest ih =>
    by_cases hp : p.1 = k
    · simp only [domErase, hp, if_true, domSum, List.foldr_cons]
      omega
    · simp only [domErase, hp, if_false, domSum, List.foldr_cons]
      simp only [domSum] at ih
      omega

theorem boardGet_set_ne (b : List Int) {k k' : Nat} (v : Int) (h : k' ≠ k) :
    boardGet (b.set k v) k' = boardGet b k' := by
  unfold boardGet
  by_cases hk : k' < b.length
  · rw [List.getD_eq_getElem _ _ (by simpa using hk), List.getD_eq_getElem _ _ hk]
    exact List.getElem_set_ne (fun he => h he.symm) _
  · rw [List.getD_eq_default _ _ (by simpa using Nat.le_of_not_lt hk),
      List.getD_eq_default _ _ (Nat.le_of_not_lt hk)]

theorem boardGet_set_self (b : List Int) {k : Nat} (v : Int) (h : k < b.length) :
    boardGet (b.set k v) k = v := by
  unfold boardGet
  rw [List.getD_eq_getElem _ _ (by simpa using h)]
  exact List.getElem_set_self (by simpa using h)

theorem domFind_of_mem_domListD {d : List (Nat × List Int)} {k : Nat} {v : Int}
    (h : v ∈ domListD d k) : domFind d k = some (domListD d k) := by
  unfold domListD at h ⊢
  cases hf : domFind d k with
  | none => rw [hf] at h; simp at h
  | some l => simp [hf]

theorem commitCell_total_le (s : SState) (key : Nat) (d0 : Int) :
    domTotal (commitCell s key d0) ≤ domTotal s := by
  simp only [commitCell, domTotal_eq_domSum]
  exact domSum_domErase_le _ _

theorem mmPass_total_le (key : Nat) (g : List Nat) :
    ∀ (s : SState) (r : Bool), domTotal (mmPass s key g r).1 ≤ domTotal s := by
  induction g with
  | nil => intro s r; simp [mmPass]
  | cons k rest ih =>
    intro s r
    simp only [mmPass]
    by_cases hv : boardGet s.board k ≠ 0 ∧ boardGet s.board k ∈ domListD s.domain key
    · rw [if_pos hv]
      have hfind := domFind_of_mem_domListD hv.2
      have hlt : ((domListD s.domain key).erase (boardGet s.board k)).length
          < (domListD s.domain key).length := by
        rw [List.length_erase_of_mem hv.2]
        exact Nat.sub_lt (List.length_pos.mpr (List.ne_nil_of_mem hv.2)) Nat.one_pos
      have hset : domSum (domSet s.domain key
          ((domListD s.domain key).erase (boardGet s.board k))) < domSum s.domain :=
        domSum_domSet_lt hfind hlt
      by_cases h1 : ((domListD s.domain key).erase (boardGet s.board k)).length = 1
      · rw [if_pos h1]
        calc domTotal (commitCell _ key _) ≤ _ := commitCell_total_le _ _ _
        _ ≤ domTotal s := by simpa [domTotal_eq_domSum] using Nat.le_of_lt hset
      · rw [if_neg h1]
        calc domTotal (mmPass _ key rest true).1 ≤ _ := ih _ _
        _ ≤ domTotal s := by simpa [domTotal_eq_domSum] using Nat.le_of_lt hset
    · rw [if_neg hv]
      exact ih s r

theorem mmPass_cases (key : Nat) (g : List Nat) :
    ∀ (s : SState) (r : Bool),
      (mmPass s key g r = (s, r, false) ∧
        ∀ k ∈ g, boardGet s.board k = 0 ∨ boardGet s.board k ∉ domListD s.domain key) ∨
      domTotal (mmPass s key g r).1 < domTotal s := by
  induction g with
  | nil =>
    intro s r
    left
    exact ⟨rfl, by simp⟩
  | cons k rest ih =>
    intro s r
    simp only [mmPass]
    by_cases hv : boardGet s.board k ≠ 0 ∧ boardGet s.board k ∈ domListD s.domain key
    · right
      rw [if_pos hv]
      have hfind := domFind_of_mem_domListD hv.2
      have hlt : ((domListD s.domain key).erase (boardGet s.board k)).length
          < (domListD s.domain key).length := by
        rw [List.length_erase_of_mem hv.2]
        exact Nat.sub_lt (List.length_pos.mpr (List.ne_nil_of_mem hv.2)) Nat.one_pos
      have hset : domSum (domSet s.domain key
          ((domListD s.domain key).erase (boardGet s.board k))) < domSum s.domain :=
        domSum_domSet_lt hfind hlt
      by_cases h1 : ((domListD s.domain key).erase (boardGet s.board k)).length = 1
      · rw [if_pos h1]
        calc domTotal (commitCell _ key _) ≤ _ := commitCell_total_le _ _ _
        _ < domTotal s := by simpa [domTotal_eq_domSum] using hset
      · rw [if_neg h1]
        calc domTotal (mmPass _ key rest true).1 ≤ _ := mmPass_total_le key rest _ _
        _ < domTotal s := by simpa [domTotal_eq_domSum] using hset
    · rw [if_neg hv]
      rcases ih s r with ⟨heq, hnv⟩ | hlt
      · left
        refine ⟨heq, ?_⟩
        intro k2 hk2
        rcases List.mem_cons.mp hk2 with hk2 | hk2
        · subst hk2
          by_cases h0 : boardGet s.board k2 = 0
          · exact Or.inl h0
          · right
            intro hmem
            exact hv ⟨h0, hmem⟩
        · exact hnv k2 hk2
      · right
        exact hlt

theorem mmWhile_total_le (key : Nat) (g : List Nat) :
    ∀ (fuel : Nat) (s : SState) (hc : Bool),
      domTotal (mmWhile fuel s key g hc).1 ≤ domTotal s := by
  intro fuel
  induction fuel with
  | zero => intro s hc; simp [mmWhile]
  | succ n ih =>
    intro s hc
    simp only [mmWhile]
    rcases hr : mmPass s key g false with ⟨s1, a, c⟩
    have h1 : domTotal s1 ≤ domTotal s := by
      have := mmPass_total_le key g s false
      rw [hr] at this
      exact this
    cases c
    · cases a
      · simpa using h1
      · simpa using Nat.le_trans (ih s1 true) h1
    · simpa using h1

theorem mmWhile_succ_cases (key : Nat) (g : List Nat) (n : Nat) (s : SState) (hc : Bool) :
    (mmWhile (n + 1) s key g hc = (s, hc) ∧ noViol s key g) ∨
    domTotal (mmWhile (n + 1) s key g hc).1 < domTotal s := by
  rcases mmPass_cases key g s false with ⟨heq, hnv⟩ | hlt
  · left
    constructor
    · simp [mmWhile, heq]
    · exact hnv
  · right
    simp only [mmWhile]
    rcases hr : mmPass s key g false with ⟨s1, a, c⟩
    rw [hr] at hlt
    simp only at hlt
    cases c
    · cases a
      · simpa using hlt
      · simpa using Nat.lt_of_le_of_lt (mmWhile_total_le key g n s1 true) hlt
    · simpa using hlt

theorem makeMoves_cases (s : SState) (key : Nat) (g : List Nat) :
    (makeMoves s key g = (s, false) ∧ noViol s key g) ∨
    domTotal (makeMoves s key g).1 < domTotal s := by
  exact mmWhile_succ_cases key g _ s false

theorem makeMoves_total_le (s : SState) (key : Nat) (g : List Nat) :
    domTotal (makeMoves s key g).1 ≤ domTotal s :=
  mmWhile_total_le key g _ s false

theorem sweepKeys_total_le (g : List Nat) :
    ∀ (ks : List Nat) (s : SState) (hc : Bool),
      domTotal (sweepKeys g s hc ks).1 ≤ domTotal s := by
  intro ks
  induction ks with
  | nil => intro s hc; simp [sweepKeys]
  | cons k rest ih =>
    intro s hc
    simp only [sweepKeys]
    by_cases hk : s.unresolved.contains k = true
    · rw [if_pos hk]
      cases hc
      · simp only [Bool.false_eq_true, if_false]
        exact Nat.le_trans (ih _ _) (makeMoves_total_le s k g)
      · simp only [if_true]
        exact ih s true
    · rw [if_neg hk]
      exact ih s hc

theorem sweepKeys_cases (g : List Nat) :
    ∀ (ks : List Nat) (s : SState) (hc : Bool),
      (sweepKeys g s hc ks = (s, hc) ∧
        ∀ k ∈ ks, k ∈ s.unresolved → hc = false → noViol s k g) ∨
      domTotal (sweepKeys g s hc ks).1 < domTotal s := by
  intro ks
  induction ks with
  | nil =>
    intro s hc
    left
    exact ⟨rfl, by simp⟩
  | cons k rest ih =>
    intro s hc
    simp only [sweepKeys]
    by_cases hk : s.unresolved.contains k = true
    · rw [if_pos hk]
      cases hc
      · simp only [Bool.false_eq_true, if_false]
        rcases makeMoves_cases s k g with ⟨heq, hnv⟩ | hlt
        · rw [heq]
          simp only
          rcases ih s false with ⟨heq2, hnv2⟩ | hlt2
          · left
            refine ⟨heq2, ?_⟩
            intro k2 hk2 hmem hfalse
            rcases List.mem_cons.mp hk2 with hk2 | hk2
            · exact hk2 ▸ hnv
            · exact hnv2 k2 hk2 hmem rfl
          · right
            exact hlt2
        · right
          rcases hr : makeMoves s k g with ⟨s1, c⟩
          rw [hr] at hlt
          simp only at hlt
          exact Nat.lt_of_le_of_lt (sweepKeys_total_le g rest s1 c) hlt
      · simp only [if_true]
        rcases ih s true with ⟨heq2, hnv2⟩ | hlt2
        · left
          refine ⟨heq2, ?_⟩
          intro k2 hk2 hmem hfalse
          exact absurd hfalse (by simp)
        · right
          exact hlt2
    · rw [if_neg hk]
      rcases ih s hc with ⟨heq2, hnv2⟩ | hlt2
      · left
        refine ⟨heq2, ?_⟩
        intro k2 hk2 hmem hfalse
        rcases List.mem_cons.mp hk2 with hk2 | hk2
        · subst hk2
          exact absurd (by simpa using hmem) hk
        · exact hnv2 k2 hk2 hmem hfalse
      · right
        exact hlt2

theorem sweepGroups_total_le :
    ∀ (gs : List (List Nat)) (s : SState) (hc : Bool),
      domTotal (sweepGroups s hc gs).1 ≤ domTotal s := by
  intro gs
  induction gs with
  | nil => intro s hc; simp [sweepGroups]
  | cons g rest ih =>
    intro s hc
    simp only [sweepGroups]
    rcases hr : sweepKeys g s hc g with ⟨s1, hc1⟩
    have h1 : domTotal s1 ≤ domTotal s := by
      have := sweepKeys_total_le g g s hc
      rw [hr] at this
      exact this
    exact Nat.le_trans (ih s1 hc1) h1

theorem sweepGroups_cases :
    ∀ (gs : List (List Nat)) (s : SState) (hc : Bool),
      (sweepGroups s hc gs = (s, hc) ∧
        ∀ g ∈ gs, ∀ k ∈ g, k ∈ s.unresolved → hc = false → noViol s k g) ∨
      domTotal (sweepGroups s hc gs).1 < domTotal s := by
  intro gs
  induction gs with
  | nil =>
    intro s hc
    left
    exact ⟨rfl, by simp⟩
  | cons g rest ih =>
    intro s hc
    simp only [sweepGroups]
    rcases sweepKeys_cases g g s hc with ⟨heq, hnv⟩ | hlt
    · rw [heq]
      simp only
      rcases ih s hc with ⟨heq2, hnv2⟩ | hlt2
      · left
        refine ⟨heq2, ?_⟩
        intro g2 hg2 k hk hmem hfalse
        rcases List.mem_cons.mp hg2 with hg2 | hg2
        · exact hg2 ▸ (hnv k (hg2 ▸ hk) hmem hfalse)
        · exact hnv2 g2 hg2 k hk hmem hfalse
      · right
        exact hlt2
    · right
      rcases hr : sweepKeys g s hc g with ⟨s1, hc1⟩
      rw [hr] at hlt
      simp only at hlt
      exact Nat.lt_of_le_of_lt (sweepGroups_total_le rest s1 hc1) hlt

/-- Each `ac3` sweep either returns the state unchanged with the
no-change flag, or strictly decreases the total candidate count. -/
theorem sweep_cases (s : SState) :
    (sweep s = (s, false) ∧
      ∀ g ∈ constraintsAll, ∀ k ∈ g, k ∈ s.unresolved → noViol s k g) ∨
    domTotal (sweep s).1 < domTotal s := by
  rcases sweepGroups_cases constraintsAll s false with ⟨heq, hnv⟩ | hlt
  · left
    exact ⟨heq, fun g hg k hk hm => hnv g hg k hk hm rfl⟩
  · right
    exact hlt

theorem sweep_total_le (s : SState) : domTotal (sweep s).1 ≤ domTotal s :=
  sweepGroups_total_le constraintsAll s false

theorem ac3Fuel_irrel :
    ∀ (n : Nat), ∀ (s : SState) (m : Nat), domTotal s < n → domTotal s < m →
      ac3Fuel n s = ac3Fuel m s := by
  intro n
  induction n with
  | zero => intro s m hn; omega
  | succ n ih =>
    intro s m hn hm
    cases m with
    | zero => omega
    | succ m =>
      simp only [ac3Fuel]
      rcases hr : sweep s with ⟨s1, flag⟩
      cases flag
      · simp
      · simp only [if_true]
        have hlt : domTotal s1 < domTotal s := by
          rcases sweep_cases s with ⟨heq, _⟩ | hlt
          · rw [heq] at hr
            cases hr
          · rw [hr] at hlt
            exact hlt
        exact ih s1 m (by omega) (by omega)

theorem headD_mem_of_length_one {l : List Int} (h : l.length = 1) : l.headD 0 ∈ l := by
  cases l with
  | nil => simp at h
  | cons a t => simp

theorem makeMove_cases (b : List Int) (key : Nat) (v : Int) :
    makeMove b key v = -1 ∨ makeMove b key v = v := by
  unfold makeMove
  induction constraintsAll with
  | nil => exact Or.inr rfl
  | cons g rest ih =>
    simp only [mmGroups]
    by_cases h : (g.contains key && mmHit b v g) = true
    · rw [if_pos h]
      exact Or.inl rfl
    · rw [if_neg h]
      exact ih

theorem keyFacts {s : SState} {key : Nat} {v : Int} (hw : WF s)
    (hv : v ∈ domListD s.domain key) :
    domFind s.domain key = some (domListD s.domain key) ∧
    key ∈ s.unresolved ∧ key < 81 ∧ boardGet s.board key = 0 ∧
    (key, domListD s.domain key) ∈ s.domain := by
  have hfind := domFind_of_mem_domListD hv
  have hkeymem : key ∈ s.domain.map Prod.fst :=
    (domFind_isSome_iff s.domain key).mp ⟨_, hfind⟩
  have hu : key ∈ s.unresolved := hw.domkeys ▸ hkeymem
  have h81 := (hw.ures key).mp hu
  exact ⟨hfind, hu, h81.1, h81.2, domFind_mem hfind⟩

theorem fstNodup {s : SState} (hw : WF s) : (s.domain.map Prod.fst).Nodup := by
  rw [hw.domkeys]
  exact hw.unodup

theorem domListD_domErase_self {d : List (Nat × List Int)} {k : Nat}
    (hn : (d.map Prod.fst).Nodup) : domListD (domErase d k) k = [] := by
  unfold domListD
  rw [domFind_domErase_self hn]
  rfl

theorem domListD_domErase_ne (d : List (Nat × List Int)) {k k' : Nat}
    (h : k' ≠ k) : domListD (domErase d k) k' = domListD d k' := by
  unfold domListD
  rw [domFind_domErase_ne _ h]

theorem domListD_domSet_ne (d : List (Nat × List Int)) {k k' : Nat} (v : List Int)
    (h : k' ≠ k) : domListD (domSet d k v) k' = domListD d k' := by
  unfold domListD
  rw [domFind_domSet_ne _ _ h]

theorem step_set_preserve {s : SState} {key : Nat} {v : Int} (hw : WF s)
    (hv : v ∈ domListD s.domain key)
    (h1 : ((domListD s.domain key).erase v).length ≠ 1) :
    WF { s with domain := domSet s.domain key ((domListD s.domain key).erase v) } ∧
    (∀ k, domListD (domSet s.domain key ((domListD s.domain key).erase v)) k ⊆
      domListD s.domain k) := by
  obtain ⟨hfind, hu, h81, h0, hmem⟩ := keyFacts hw hv
  have hent2 : 2 ≤ (domListD s.domain key).length := hw.domlen _ hmem
  have hlen1 : 1 ≤ ((domListD s.domain key).erase v).length := by
    rw [List.length_erase_of_mem hv]
    omega
  have hsub : (domListD s.domain key).erase v ⊆ domListD s.domain key :=
    List.erase_subset _ _
  constructor
  · refine ⟨hw.len81, hw.ures, hw.unodup, ?_, ?_, ?_, ?_⟩
    · rw [domSet_map_fst]
      exact hw.domkeys
    · intro p hp v2 hv2
      rcases mem_domSet hp with hp | hp
      · exact hw.dombound p hp v2 hv2
      · subst hp
        exact hw.dombound _ hmem v2 (hsub hv2)
    · intro p hp
      rcases mem_domSet hp with hp | hp
      · exact hw.domnodup p hp
      · subst hp
        exact (hw.domnodup _ hmem).erase _
    · intro p hp
      rcases mem_domSet hp with hp | hp
      · exact hw.domlen p hp
      · subst hp
        show 2 ≤ ((domListD s.domain key).erase v).length
        omega
  · intro k
    by_cases hk : k = key
    · subst hk
      unfold domListD
      rw [domFind_domSet_self _ hfind]
      simpa using hsub
    · unfold domListD
      rw [domFind_domSet_ne _ _ hk]
      exact fun x hx => hx

theorem step_commit_preserve {s : SState} {key : Nat} {v : Int} {t : SState} (hw : WF s)
    (hv : v ∈ domListD s.domain key)
    (h1 : ((domListD s.domain key).erase v).length = 1)
    (ht : t = commitCell { s with domain := domSet s.domain key ((domListD s.domain key).erase v) } key (((domListD s.domain key).erase v).headD 0)) :
    WF t ∧
    (∀ k, domListD t.domain k ⊆ domListD s.domain k) ∧
    (∀ k, boardGet s.board k ≠ 0 → boardGet t.board k = boardGet s.board k) := by
  subst ht
  obtain ⟨hfind, hu, h81, h0, hmem⟩ := keyFacts hw hv
  have hd0 : ((domListD s.domain key).erase v).headD 0 ∈ (domListD s.domain key).erase v :=
    headD_mem_of_length_one h1
  have hd0dom : ((domListD s.domain key).erase v).headD 0 ∈ domListD s.domain key :=
    List.erase_subset _ _ hd0
  have hd0b : 1 ≤ ((domListD s.domain key).erase v).headD 0 ∧
      ((domListD s.domain key).erase v).headD 0 ≤ 9 := hw.dombound _ hmem _ hd0dom
  have hmv : makeMove s.board key (((domListD s.domain key).erase v).headD 0) ≠ 0 := by
    rcases makeMove_cases s.board key (((domListD s.domain key).erase v).headD 0) with h | h
    · rw [h]
      omega
    · rw [h]
      omega
  have hfst1 : (domSet s.domain key ((domListD s.domain key).erase v)).map Prod.fst
      = s.unresolved := by
    rw [domSet_map_fst]
    exact hw.domkeys
  have hfst1n : ((domSet s.domain key ((domListD s.domain key).erase v)).map Prod.fst).Nodup := by
    rw [hfst1]
    exact hw.unodup
  have hpkey : ∀ p, p ∈ domErase (domSet s.domain key ((domListD s.domain key).erase v)) key →
      p ∈ s.domain := by
    intro p hp
    have hpk : p.1 ≠ key := by
      intro he
      have hmem2 : p.1 ∈ (domErase (domSet s.domain key ((domListD s.domain key).erase v)) key).map
          Prod.fst := List.mem_map.mpr ⟨p, hp, rfl⟩
      rw [domErase_map_fst, hfst1, he] at hmem2
      exact absurd ((hw.unodup.mem_erase_iff).mp hmem2).1 (by simp)
    rcases mem_domSet (mem_domErase hp) with hp1 | hp1
    · exact hp1
    · exact absurd (by rw [hp1]) hpk
  refine ⟨⟨?_, ?_, ?_, ?_, ?_, ?_, ?_⟩, ?_, ?_⟩
  · simp only [commitCell, List.length_set]
    exact hw.len81
  · intro k
    simp only [commitCell]
    constructor
    · intro hk
      have hke := (hw.unodup.mem_erase_iff).mp hk
      have h2 := (hw.ures k).mp hke.2
      refine ⟨h2.1, ?_⟩
      rw [boardGet_set_ne _ _ hke.1]
      exact h2.2
    · intro hk
      by_cases hkey : k = key
      · subst hkey
        rw [boardGet_set_self _ _ (by rw [hw.len81]; exact h81)] at hk
        exact absurd hk.2 hmv
      · rw [boardGet_set_ne _ _ hkey] at hk
        exact (hw.unodup.mem_erase_iff).mpr ⟨hkey, (hw.ures k).mpr hk⟩
  · exact hw.unodup.erase _
  · simp only [commitCell]
    rw [domErase_map_fst, hfst1]
  · intro p hp
    exact hw.dombound p (hpkey p hp)
  · intro p hp
    exact hw.domnodup p (hpkey p hp)
  · intro p hp
    exact hw.domlen p (hpkey p hp)
  · intro k
    simp only [commitCell]
    by_cases hk : k = key
    · subst hk
      rw [domListD_domErase_self hfst1n]
      intro x hx
      simp at hx
    · rw [domListD_domErase_ne _ hk, domListD_domSet_ne _ _ hk]
      exact fun x hx => hx
  · intro k hk
    simp only [commitCell]
    have hkey : k ≠ key := by
      intro he
      rw [he] at hk
      exact hk h0
    exact boardGet_set_ne _ _ hkey

theorem mmPass_preserve (key : Nat) (g : List Nat) :
    ∀ (s : SState) (r : Bool), WF s →
      WF (mmPass s key g r).1 ∧
      (∀ k, domListD (mmPass s key g r).1.domain k ⊆ domListD s.domain k) ∧
      (∀ k, boardGet s.board k ≠ 0 →
        boardGet (mmPass s key g r).1.board k = boardGet s.board k) := by
  induction g with
  | nil =>
    intro s r hw
    exact ⟨hw, fun k => fun x hx => hx, fun k hk => rfl⟩
  | cons k2 rest ih =>
    intro s r hw
    simp only [mmPass]
    by_cases hv : boardGet s.board k2 ≠ 0 ∧ boardGet s.board k2 ∈ domListD s.domain key
    · rw [if_pos hv]
      by_cases h1 : ((domListD s.domain key).erase (boardGet s.board k2)).length = 1
      · rw [if_pos h1]
        exact step_commit_preserve hw hv.2 h1 rfl
      · rw [if_neg h1]
        obtain ⟨hw1, hsub1⟩ := step_set_preserve hw hv.2 h1
        obtain ⟨hw2, hsub2, hpres2⟩ := ih _ true hw1
        refine ⟨hw2, ?_, ?_⟩
        · intro k
          exact fun x hx => hsub1 k (hsub2 k hx)
        · intro k hk
          exact hpres2 k hk
    · rw [if_neg hv]
      exact ih s r hw

theorem mmWhile_preserve (key : Nat) (g : List Nat) :
    ∀ (fuel : Nat) (s : SState) (hc : Bool), WF s →
      WF (mmWhile fuel s key g hc).1 ∧
      (∀ k, domListD (mmWhile fuel s key g hc).1.domain k ⊆ domListD s.domain k) ∧
      (∀ k, boardGet s.board k ≠ 0 →
        boardGet (mmWhile fuel s key g hc).1.board k = boardGet s.board k) := by
  intro fuel
  induction fuel with
  | zero =>
    intro s hc hw
    exact ⟨hw, fun k => fun x hx => hx, fun k hk => rfl⟩
  | succ n ih =>
    intro s hc hw
    simp only [mmWhile]
    rcases hr : mmPass s key g false with ⟨s1, a, c⟩
    obtain ⟨hw1, hsub1, hpres1⟩ := mmPass_preserve key g s false hw
    rw [hr] at hw1 hsub1 hpres1
    simp only at hw1 hsub1 hpres1
    cases c
    · cases a
      · simpa using ⟨hw1, hsub1, hpres1⟩
      · simp only [if_true, Bool.false_eq_true, if_false]
        obtain ⟨hw2, hsub2, hpres2⟩ := ih s1 true hw1
        refine ⟨hw2, ?_, ?_⟩
        · intro k
          exact fun x hx => hsub1 k (hsub2 k hx)
        · intro k hk
          rw [hpres2 k (by rw [hpres1 k hk]; exact hk), hpres1 k hk]
    · simpa using ⟨hw1, hsub1, hpres1⟩

theorem makeMoves_preserve (s : SState) (key : Nat) (g : List Nat) (hw : WF s) :
    WF (makeMoves s key g).1 ∧
    (∀ k, domListD (makeMoves s key g).1.domain k ⊆ domListD s.domain k) ∧
    (∀ k, boardGet s.board k ≠ 0 →
      boardGet (makeMoves s key g).1.board k = boardGet s.board k) :=
  mmWhile_preserve key g _ s false hw

theorem sweepKeys_preserve (g : List Nat) :
    ∀ (ks : List Nat) (s : SState) (hc : Bool), WF s →
      WF (sweepKeys g s hc ks).1 ∧
      (∀ k, domListD (sweepKeys g s hc ks).1.domain k ⊆ domListD s.domain k) ∧
      (∀ k, boardGet s.board k ≠ 0 →
        boardGet (sweepKeys g s hc ks).1.board k = boardGet s.board k) := by
  intro ks
  induction ks with
  | nil =>
    intro s hc hw
    exact ⟨hw, fun k => fun x hx => hx, fun k hk => rfl⟩
  | cons k rest ih =>
    intro s hc hw
    simp only [sweepKeys]
    by_cases hk : s.unresolved.contains k = true
    · rw [if_pos hk]
      cases hc
      · simp only [Bool.false_eq_true, if_false]
        obtain ⟨hw1, hsub1, hpres1⟩ := makeMoves_preserve s k g hw
        obtain ⟨hw2, hsub2, hpres2⟩ := ih (makeMoves s k g).1 (makeMoves s k g).2 hw1
        refine ⟨hw2, ?_, ?_⟩
        · intro k2
          exact fun x hx => hsub1 k2 (hsub2 k2 hx)
        · intro k2 hk2
          rw [hpres2 k2 (by rw [hpres1 k2 hk2]; exact hk2), hpres1 k2 hk2]
      · simp only [if_true]
        exact ih s true hw
    · rw [if_neg hk]
      exact ih s hc hw

theorem sweepGroups_preserve :
    ∀ (gs : List (List Nat)) (s : SState) (hc : Bool), WF s →
      WF (sweepGroups s hc gs).1 ∧
      (∀ k, domListD (sweepGroups s hc gs).1.domain k ⊆ domListD s.domain k) ∧
      (∀ k, boardGet s.board k ≠ 0 →
        boardGet (sweepGroups s hc gs).1.board k = boardGet s.board k) := by
  intro gs
  induction gs with
  | nil =>
    intro s hc hw
    exact ⟨hw, fun k => fun x hx => hx, fun k hk => rfl⟩
  | cons g rest ih =>
    intro s hc hw
    simp only [sweepGroups]
    obtain ⟨hw1, hsub1, hpres1⟩ := sweepKeys_preserve g g s hc hw
    obtain ⟨hw2, hsub2, hpres2⟩ := ih (sweepKeys g s hc g).1 (sweepKeys g s hc g).2 hw1
    refine ⟨hw2, ?_, ?_⟩
    · intro k
      exact fun x hx => hsub1 k (hsub2 k hx)
    · intro k hk
      rw [hpres2 k (by rw [hpres1 k hk]; exact hk), hpres1 k hk]

theorem sweep_preserve (s : SState) (hw : WF s) :
    WF (sweep s).1 ∧
    (∀ k, domListD (sweep s).1.domain k ⊆ domListD s.domain k) ∧
    (∀ k, boardGet s.board k ≠ 0 →
      boardGet (sweep s).1.board k = boardGet s.board k) :=
  sweepGroups_preserve constraintsAll s false hw

theorem ac3Fuel_preserve :
    ∀ (fuel : Nat) (s : SState), WF s →
      WF (ac3Fuel fuel s) ∧
      (∀ k, domListD (ac3Fuel fuel s).domain k ⊆ domListD s.domain k) ∧
      (∀ k, boardGet s.board k ≠ 0 →
        boardGet (ac3Fuel fuel s).board k = boardGet s.board k) := by
  intro fuel
  induction fuel with
  | zero =>
    intro s hw
    exact ⟨hw, fun k => fun x hx => hx, fun k hk => rfl⟩
  | succ n ih =>
    intro s hw
    simp only [ac3Fuel]
    rcases hr : sweep s with ⟨s1, flag⟩
    obtain ⟨hw1, hsub1, hpres1⟩ := sweep_preserve s hw
    rw [hr] at hw1 hsub1 hpres1
    simp only at hw1 hsub1 hpres1
    cases flag
    · simpa using ⟨hw1, hsub1, hpres1⟩
    · simp only [if_true]
      obtain ⟨hw2, hsub2, hpres2⟩ := ih s1 hw1
      refine ⟨hw2, ?_, ?_⟩
      · intro k
        exact fun x hx => hsub1 k (hsub2 k hx)
      · intro k hk
        rw [hpres2 k (by rw [hpres1 k hk]; exact hk), hpres1 k hk]

theorem ac3_preserve (s : SState) (hw : WF s) :
    WF (ac3 s) ∧
    (∀ k, domListD (ac3 s).domain k ⊆ domListD s.domain k) ∧
    (∀ k, boardGet s.board k ≠ 0 →
      boardGet (ac3 s).board k = boardGet s.board k) :=
  ac3Fuel_preserve _ s hw

theorem mk_domkeys (board : List Int) : ∀ l : List Nat,
    ((l.filterMap (fun k =>
      if boardGet board k = 0 then some (k, ([1, 2, 3, 4, 5, 6, 7, 8, 9] : List Int))
      else none)).map Prod.fst) = l.filter (fun k => boardGet board k = 0) := by
  intro l
  induction l with
  | nil => rfl
  | cons a t ih =>
    by_cases h : boardGet board a = 0
    · simp [h, ih]
    · simp [h, ih]

theorem wf_mkSudoku {b : List Int} (hb : b.length = 81) : WF (mkSudoku b) := by
  refine ⟨hb, ?_, ?_, ?_, ?_, ?_, ?_⟩
  · intro k
    simp only [mkSudoku, List.mem_filter, List.mem_range]
    constructor
    · intro hk
      exact ⟨hk.1, by simpa using hk.2⟩
    · intro hk
      exact ⟨hk.1, by simpa using hk.2⟩
  · simp only [mkSudoku]
    exact (List.nodup_range 81).filter _
  · exact mk_domkeys b (List.range 81)
  · intro p hp
    simp only [mkSudoku, List.mem_filterMap] at hp
    obtain ⟨a, _, ha⟩ := hp
    by_cases h : boardGet b a = 0
    · rw [if_pos h] at ha
      cases ha
      intro v hv
      fin_cases hv <;> simp
    · rw [if_neg h] at ha
      cases ha
  · intro p hp
    simp only [mkSudoku, List.mem_filterMap] at hp
    obtain ⟨a, _, ha⟩ := hp
    by_cases h : boardGet b a = 0
    · rw [if_pos h] at ha
      cases ha
      simp
    · rw [if_neg h] at ha
      cases ha
  · intro p hp
    simp only [mkSudoku, List.mem_filterMap] at hp
    obtain ⟨a, _, ha⟩ := hp
    by_cases h : boardGet b a = 0
    · rw [if_pos h] at ha
      cases ha
      simp
    · rw [if_neg h] at ha
      cases ha

theorem branch_preserve {s : SState} {key : Nat} {v : Int} (hw : WF s)
    (hv : v ∈ domListD s.domain key) :
    WF (setCell (removeKey s key) key v) ∧
    (∀ k, boardGet s.board k ≠ 0 →
      boardGet (setCell (removeKey s key) key v).board k = boardGet s.board k) := by
  obtain ⟨hfind, hu, h81, h0, hmem⟩ := keyFacts hw hv
  have hvb : 1 ≤ v ∧ v ≤ 9 := hw.dombound _ hmem _ hv
  constructor
  · refine ⟨?_, ?_, ?_, ?_, ?_, ?_, ?_⟩
    · simp only [setCell, removeKey, List.length_set]
      exact hw.len81
    · intro k
      simp only [setCell, removeKey]
      constructor
      · intro hk
        have hke := (hw.unodup.mem_erase_iff).mp hk
        have h2 := (hw.ures k).mp hke.2
        refine ⟨h2.1, ?_⟩
        rw [boardGet_set_ne _ _ hke.1]
        exact h2.2
      · intro hk
        by_cases hkey : k = key
        · subst hkey
          rw [boardGet_set_self _ _ (by rw [hw.len81]; exact h81)] at hk
          omega
        · rw [boardGet_set_ne _ _ hkey] at hk
          exact (hw.unodup.mem_erase_iff).mpr ⟨hkey, (hw.ures k).mpr hk⟩
    · exact hw.unodup.erase _
    · simp only [setCell, removeKey]
      rw [domErase_map_fst, hw.domkeys]
    · intro p hp
      exact hw.dombound p (mem_domErase hp)
    · intro p hp
      exact hw.domnodup p (mem_domErase hp)
    · intro p hp
      exact hw.domlen p (mem_domErase hp)
  · intro k hk
    simp only [setCell, removeKey]
    have hkey : k ≠ key := by
      intro he
      rw [he] at hk
      exact hk h0
    exact boardGet_set_ne _ _ hkey

theorem reach_wf : ∀ s : SState, Reach s → WF s := by
  intro s h
  induction h with
  | init b hb => exact wf_mkSudoku hb
  | prop s2 h2 ih => exact (ac3_preserve s2 ih).1
  | branch s2 n key rest v h2 hsel hv ih => exact (branch_preserve ih hv).1

theorem contains_iff_boardGet (b : List Int) (x : Int) :
    b.contains x = true ↔ ∃ k, k < b.length ∧ boardGet b k = x := by
  have hmem : b.contains x = true ↔ x ∈ b := by simp
  rw [hmem, List.mem_iff_getElem]
  constructor
  · rintro ⟨n, hn, he⟩
    refine ⟨n, hn, ?_⟩
    unfold boardGet
    rw [List.getD_eq_getElem b 0 hn]
    exact he
  · rintro ⟨n, hn, he⟩
    refine ⟨n, hn, ?_⟩
    unfold boardGet at he
    rw [List.getD_eq_getElem b 0 hn] at he
    exact he

theorem isSolvedB_false_of_invalid {b : List Int} (h : b.contains (-1) = true) :
    isSolvedB b = false := by
  unfold isSolvedB
  rw [h]
  simp

theorem hasInvalid_mono {s t : SState}
    (hlen : t.board.length = s.board.length)
    (hpres : ∀ k, boardGet s.board k ≠ 0 → boardGet t.board k = boardGet s.board k)
    (h : hasInvalid s = true) : hasInvalid t = true := by
  unfold hasInvalid at h ⊢
  rw [contains_iff_boardGet] at h ⊢
  obtain ⟨k, hk, he⟩ := h
  refine ⟨k, by omega, ?_⟩
  rw [hpres k (by rw [he]; omega)]
  exact he

theorem hasInvalid_branch {s : SState} {key : Nat} {v : Int} (hw : WF s)
    (hv : v ∈ domListD s.domain key) (h : hasInvalid s = true) :
    hasInvalid (ac3 (setCell (removeKey s key) key v)) = true := by
  obtain ⟨hw1, hpres1⟩ := branch_preserve hw hv
  obtain ⟨hw2, _, hpres2⟩ := ac3_preserve _ hw1
  have h1 : hasInvalid (setCell (removeKey s key) key v) = true := by
    refine hasInvalid_mono ?_ hpres1 h
    rw [hw1.len81, hw.len81]
  refine hasInvalid_mono ?_ hpres2 h1
  rw [hw2.len81, hw1.len81]

theorem tryVals_none_of_invalid (fuel : Nat) {s : SState} {key : Nat} (hw : WF s)
    (hinv : hasInvalid s = true)
    (hrec : ∀ p, WF p → hasInvalid p = true → expandGT fuel p = none) :
    ∀ vals : List Int, (∀ v ∈ vals, v ∈ domListD s.domain key) →
      tryVals (expandGT fuel) (removeKey s key) key vals = none := by
  intro vals
  induction vals with
  | nil => intro hsub; rfl
  | cons v vs ih =>
    intro hsub
    have hv : v ∈ domListD s.domain key := hsub v (List.mem_cons_self _ _)
    have hwp : WF (ac3 (setCell (removeKey s key) key v)) :=
      (ac3_preserve _ (branch_preserve hw hv).1).1
    have hinvp := hasInvalid_branch hw hv hinv
    have hsolved : isSolved (ac3 (setCell (removeKey s key) key v)) = false :=
      isSolvedB_false_of_invalid hinvp
    simp only [tryVals, hsolved, Bool.false_eq_true, if_false]
    by_cases hinc : isIncomplete (ac3 (setCell (removeKey s key) key v)) = true
    · rw [if_pos hinc, hrec _ hwp hinvp]
      exact ih (fun v2 hv2 => hsub v2 (List.mem_cons_of_mem _ hv2))
    · rw [if_neg hinc]
      exact ih (fun v2 hv2 => hsub v2 (List.mem_cons_of_mem _ hv2))

theorem expandGT_none_of_invalid :
    ∀ (fuel : Nat) (s : SState), WF s → hasInvalid s = true → expandGT fuel s = none := by
  intro fuel
  induction fuel with
  | zero => intro s hw hinv; rfl
  | succ n ih =>
    intro s hw hinv
    simp only [expandGT]
    cases hs : sortedGuessList s with
    | nil => rfl
    | cons hd tl =>
      rcases hd with ⟨m, key⟩
      exact tryVals_none_of_invalid n hw hinv ih (domListD s.domain key) (fun v hv => hv)

theorem tryVals_pres (fuel : Nat) {s : SState} {key : Nat} (hw : WF s)
    (hrec : ∀ p q, WF p → expandGT fuel p = some q →
      ∀ k, boardGet p.board k ≠ 0 → boardGet q.board k = boardGet p.board k) :
    ∀ (vals : List Int) (q : SState), (∀ v ∈ vals, v ∈ domListD s.domain key) →
      tryVals (expandGT fuel) (removeKey s key) key vals = some q →
      ∀ k, boardGet s.board k ≠ 0 → boardGet q.board k = boardGet s.board k := by
  intro vals
  induction vals with
  | nil =>
    intro q hsub hq
    simp [tryVals] at hq
  | cons v vs ih =>
    intro q hsub hq
    have hv : v ∈ domListD s.domain key := hsub v (List.mem_cons_self _ _)
    obtain ⟨hw0, hpres0⟩ := branch_preserve hw hv
    obtain ⟨hwp, _, hpresp⟩ := ac3_preserve _ hw0
    have hchain : ∀ k, boardGet s.board k ≠ 0 →
        boardGet (ac3 (setCell (removeKey s key) key v)).board k = boardGet s.board k := by
      intro k hk
      rw [hpresp k (by rw [hpres0 k hk]; exact hk), hpres0 k hk]
    simp only [tryVals] at hq
    split at hq
    next hsol =>
      rw [(Option.some.injEq _ _).mp hq] at hchain
      exact hchain
    next hsol =>
      split at hq
      next hinc =>
        split at hq
        next q2 hq2 =>
          have hq2q : q2 = q := (Option.some.injEq _ _).mp hq
          subst hq2q
          intro k hk
          rw [hrec _ _ hwp hq2 k (by rw [hchain k hk]; exact hk), hchain k hk]
        next hq2 =>
          exact ih q (fun v2 hv2 => hsub v2 (List.mem_cons_of_mem _ hv2)) hq
      next hinc =>
        exact ih q (fun v2 hv2 => hsub v2 (List.mem_cons_of_mem _ hv2)) hq

theorem expandGT_pres :
    ∀ (fuel : Nat) (s : SState) (q : SState), WF s → expandGT fuel s = some q →
      ∀ k, boardGet s.board k ≠ 0 → boardGet q.board k = boardGet s.board k := by
  intro fuel
  induction fuel with
  | zero =>
    intro s q hw hq
    simp [expandGT] at hq
  | succ n ih =>
    intro s q hw hq
    simp only [expandGT] at hq
    cases hs : sortedGuessList s with
    | nil => rw [hs] at hq; cases hq
    | cons hd tl =>
      rcases hd with ⟨m, key⟩
      rw [hs] at hq
      exact tryVals_pres n hw (fun p q2 hwp hq2 => ih p q2 hwp hq2)
        (domListD s.domain key) q (fun v hv => hv) hq

theorem solveS_board_pres {s : SState} (hw : WF s) :
    (∀ q, (solveS s).1 = some q →
      ∀ k, boardGet s.board k ≠ 0 → boardGet q.board k = boardGet s.board k) ∧
    (∀ k, boardGet s.board k ≠ 0 → boardGet (solveS s).2.board k = boardGet s.board k) := by
  obtain ⟨hw1, _, hpres1⟩ := ac3_preserve s hw
  simp only [solveS]
  by_cases hsol : isSolved (ac3 s) = true
  · simp only [hsol, if_true]
    constructor
    · intro q hq
      rw [(Option.some.injEq _ _).mp hq] at hpres1
      exact hpres1
    · exact hpres1
  · rw [Bool.not_eq_true] at hsol
    simp only [hsol, Bool.false_eq_true, if_false]
    by_cases hinc : isIncomplete (ac3 s) = true
    · simp only [hinc, if_true]
      constructor
      · intro q hq
        intro k hk
        have h2 := expandGT_pres 82 (ac3 s) q hw1 hq k (by rw [hpres1 k hk]; exact hk)
        rw [h2, hpres1 k hk]
      · exact hpres1
    · rw [Bool.not_eq_true] at hinc
      simp only [hinc, Bool.false_eq_true, if_false]
      constructor
      · intro q hq
        cases hq
      · exact hpres1

theorem backtracking_pres {b : List Int} (hb : b.length = 81) :
    ∀ k, boardGet b k ≠ 0 → boardGet (backtracking b) k = boardGet b k := by
  intro k hk
  have hw := wf_mkSudoku hb
  obtain ⟨hs, hall⟩ := solveS_board_pres hw
  have hbmk : boardGet (mkSudoku b).board k = boardGet b k := rfl
  unfold backtracking
  cases hr : (solveS (mkSudoku b)).1 with
  | some q =>
    simp only [hr]
    exact hs q hr k hk
  | none =>
    simp only [hr]
    exact hall k hk

theorem solveS_fallback (s : SState) :
    (solveS s).2 = ac3 s := by
  simp only [solveS]
  by_cases hsol : isSolved (ac3 s) = true
  · simp only [hsol, if_true]
  · rw [Bool.not_eq_true] at hsol
    simp only [hsol, Bool.false_eq_true, if_false]
    by_cases hinc : isIncomplete (ac3 s) = true
    · simp only [hinc, if_true]
    · rw [Bool.not_eq_true] at hinc
      simp only [hinc, Bool.false_eq_true, if_false]

theorem backtracking_eq_of_none {b : List Int} (h : (solveS (mkSudoku b)).1 = none) :
    backtracking b = (ac3 (mkSudoku b)).board := by
  unfold backtracking
  simp only [h]
  rw [solveS_fallback]

theorem solveS_none_of_invalid {s : SState} (hw : WF s)
    (hinv : hasInvalid (ac3 s) = true) : (solveS s).1 = none := by
  have hw1 := (ac3_preserve s hw).1
  have hsol : isSolved (ac3 s) = false := isSolvedB_false_of_invalid hinv
  simp only [solveS, hsol, Bool.false_eq_true, if_false]
  by_cases hinc : isIncomplete (ac3 s) = true
  · simp only [hinc, if_true]
    exact expandGT_none_of_invalid 82 _ hw1 hinv
  · rw [Bool.not_eq_true] at hinc
    simp only [hinc, Bool.false_eq_true, if_false]

theorem acFixpoint_of_sweep_eq {s : SState} (h : (sweep s).1 = s) :
    acFixpoint s = true := by
  rcases sweep_cases s with ⟨heq, hnv⟩ | hlt
  · unfold acFixpoint
    rw [List.all_eq_true]
    intro k hk
    rw [List.all_eq_true]
    intro g hg
    rw [Bool.or_eq_true]
    by_cases hkg : g.contains k = true
    · right
      rw [List.all_eq_true]
      intro k2 hk2
      have hnv2 := hnv g hg k (by simpa using hkg) (by simpa using hk)
      rcases hnv2 k2 hk2 with h0 | hnd
      · simp [h0]
      · simp [hnd]
    · left
      simp at hkg ⊢
      exact hkg
  · rw [h] at hlt
    omega

theorem noDups_iff_nodup : ∀ l : List Int, noDups l = true ↔ l.Nodup := by
  intro l
  induction l with
  | nil => simp [noDups]
  | cons v rest ih =>
    simp only [noDups, Bool.and_eq_true, List.nodup_cons, ih]
    constructor
    · intro hx
      exact ⟨by simpa using hx.1, hx.2⟩
    · intro hx
      exact ⟨by simpa using hx.1, hx.2⟩

theorem groups_shape :
    constraintsAll.all (fun g => g.length = 9 && g.all (fun k => k < 81)) = true := by
  decide

theorem group_count {b : List Int} (hb : b.length = 81)
    (hbound : ∀ v ∈ b, -1 ≤ v ∧ v ≤ 9)
    (h0 : b.contains 0 = false) (hm1 : b.contains (-1) = false)
    {g : List Nat} (hg : g ∈ constraintsAll)
    (hnd : noDups (g.map (boardGet b)) = true) :
    ∀ d : Int, 1 ≤ d → d ≤ 9 → (g.map (boardGet b)).count d = 1 := by
  intro d hd1 hd9
  have hshape := groups_shape
  rw [List.all_eq_true] at hshape
  have hgs := hshape g hg
  rw [Bool.and_eq_true, List.all_eq_true] at hgs
  have hglen : g.length = 9 := by simpa using hgs.1
  have hval : ∀ v ∈ g.map (boardGet b), 1 ≤ v ∧ v ≤ 9 := by
    intro v hv
    rw [List.mem_map] at hv
    obtain ⟨k, hkg, hkv⟩ := hv
    have hk81 : k < 81 := by simpa using hgs.2 k hkg
    have hmemb : v ∈ b := by
      rw [← hkv]
      unfold boardGet
      rw [List.getD_eq_getElem b 0 (by omega)]
      exact List.getElem_mem _
    have hvb := hbound v hmemb
    have hv0 : v ≠ 0 := by
      intro he
      rw [he] at hmemb
      simp at h0
      exact h0 hmemb
    have hvm1 : v ≠ -1 := by
      intro he
      rw [he] at hmemb
      simp at hm1
      exact hm1 hmemb
    omega
  have hlnd : (g.map (boardGet b)).Nodup := (noDups_iff_nodup _).mp hnd
  have hsubF : (g.map (boardGet b)).toFinset ⊆ Finset.Icc (1 : Int) 9 := by
    intro v hv
    rw [List.mem_toFinset] at hv
    have := hval v hv
    rw [Finset.mem_Icc]
    omega
  have hcard : (g.map (boardGet b)).toFinset.card = 9 := by
    rw [List.toFinset_card_of_nodup hlnd, List.length_map, hglen]
  have hFeq : (g.map (boardGet b)).toFinset = Finset.Icc (1 : Int) 9 := by
    apply Finset.eq_of_subset_of_card_le hsubF
    rw [hcard]
    decide
  have hdmem : d ∈ (g.map (boardGet b)).toFinset := by
    rw [hFeq, Finset.mem_Icc]
    omega
  rw [List.mem_toFinset] at hdmem
  exact List.count_eq_one_of_mem hlnd hdmem

theorem guessLe_trans : ∀ a b c : Nat × Nat,
    guessLe a b = true → guessLe b c = true → guessLe a c = true := by
  intro a b c hab hbc
  unfold guessLe at hab hbc ⊢
  simp only [Bool.or_eq_true, Bool.and_eq_true, decide_eq_true_eq] at hab hbc ⊢
  omega

theorem guessLe_total : ∀ a b : Nat × Nat, (guessLe a b || guessLe b a) = true := by
  intro a b
  unfold guessLe
  simp only [Bool.or_eq_true, Bool.and_eq_true, decide_eq_true_eq]
  omega

theorem guessLe_refl : ∀ a : Nat × Nat, guessLe a a = true := by
  intro a
  unfold guessLe
  simp

instance : IsTrans (Nat × Nat) guessRel :=
  ⟨fun a b c hab hbc => guessLe_trans a b c hab hbc⟩

instance : IsTotal (Nat × Nat) guessRel := by
  refine ⟨fun a b => ?_⟩
  have := guessLe_total a b
  rw [Bool.or_eq_true] at this
  exact this

theorem sorted_head_min {s : SState} {n key : Nat} {rest : List (Nat × Nat)}
    (h : sortedGuessList s = (n, key) :: rest) :
    (n, key) ∈ guessList s ∧ ∀ p ∈ guessList s, guessLe (n, key) p = true := by
  have hperm := List.perm_insertionSort guessRel (guessList s)
  have hsorted := List.sorted_insertionSort guessRel (guessList s)
  unfold sortedGuessList at h
  rw [h] at hperm hsorted
  constructor
  · exact hperm.mem_iff.mp (List.mem_cons_self _ _)
  · intro p hp
    have hps : p ∈ (n, key) :: rest := hperm.mem_iff.mpr hp
    rcases List.mem_cons.mp hps with he | hr
    · rw [he]
      exact guessLe_refl _
    · exact (List.pairwise_cons.mp hsorted).1 p hr

theorem guessList_mem_entry {s : SState} {n key : Nat} (h : (n, key) ∈ guessList s) :
    ∃ l, (key, l) ∈ s.domain ∧ l.length = n := by
  unfold guessList at h
  rw [List.mem_map] at h
  obtain ⟨p, hp, he⟩ := h
  have h1 : p.2.length = n := congrArg Prod.fst he
  have h2 : p.1 = key := congrArg Prod.snd he
  refine ⟨p.2, ?_, h1⟩
  rw [← h2]
  exact hp

theorem sortedGuessList_ne_nil {s : SState} (h : s.domain ≠ []) :
    sortedGuessList s ≠ [] := by
  unfold sortedGuessList
  intro he
  have hperm := List.perm_insertionSort guessRel (guessList s)
  rw [he] at hperm
  have hl := hperm.length_eq
  unfold guessList at hl
  simp at hl
  exact h (List.eq_nil_of_length_eq_zero hl.symm)

theorem domain_ne_nil_of_incomplete {s : SState} (hw : WF s)
    (h : isIncomplete s = true) : s.domain ≠ [] := by
  unfold isIncomplete at h
  rw [contains_iff_boardGet] at h
  obtain ⟨k, hk, he⟩ := h
  have hu : k ∈ s.unresolved := (hw.ures k).mpr ⟨by rw [hw.len81] at hk; exact hk, he⟩
  intro hd
  rw [← hw.domkeys, hd] at hu
  simp at hu

theorem mmHit_iff (b : List Int) (v : Int) : ∀ g : List Nat,
    mmHit b v g = true ↔ ∃ k ∈ g, boardGet b k = v := by
  intro g
  induction g with
  | nil => simp [mmHit]
  | cons k rest ih =>
    by_cases h : boardGet b k = v
    · simp [mmHit, h]
    · simp only [mmHit, h, if_false, ih]
      constructor
      · rintro ⟨k2, hk2, he⟩
        exact ⟨k2, List.mem_cons_of_mem _ hk2, he⟩
      · rintro ⟨k2, hk2, he⟩
        rcases List.mem_cons.mp hk2 with hk2 | hk2
        · exact absurd (hk2 ▸ he) h
        · exact ⟨k2, hk2, he⟩

theorem mmGroups_neg1_iff (b : List Int) (key : Nat) (v : Int) (hv : 0 ≤ v) :
    ∀ gs : List (List Nat),
      (mmGroups b key v gs = -1 ↔ ∃ g ∈ gs, key ∈ g ∧ ∃ k ∈ g, boardGet b k = v) := by
  intro gs
  induction gs with
  | nil =>
    simp only [mmGroups]
    constructor
    · intro h
      omega
    · rintro ⟨g, hg, _⟩
      simp at hg
  | cons g rest ih =>
    simp only [mmGroups]
    by_cases h : (g.contains key && mmHit b v g) = true
    · rw [if_pos h]
      rw [Bool.and_eq_true] at h
      constructor
      · intro _
        refine ⟨g, List.mem_cons_self _ _, by simpa using h.1, ?_⟩
        exact (mmHit_iff b v g).mp h.2
      · intro _
        rfl
    · rw [if_neg h]
      rw [ih]
      constructor
      · rintro ⟨g2, hg2, hkey, hk⟩
        exact ⟨g2, List.mem_cons_of_mem _ hg2, hkey, hk⟩
      · rintro ⟨g2, hg2, hkey, hk⟩
        rcases List.mem_cons.mp hg2 with hg2 | hg2
        · subst hg2
          exfalso
          apply h
          rw [Bool.and_eq_true]
          exact ⟨by simpa using hkey, (mmHit_iff b v g2).mpr hk⟩
        · exact ⟨g2, hg2, hkey, hk⟩

theorem mmPass_commit (key : Nat) (g : List Nat) :
    ∀ (s : SState) (r : Bool), WF s → (mmPass s key g r).2.2 = true →
      key ∉ (mmPass s key g r).1.unresolved ∧
      domFind (mmPass s key g r).1.domain key = none ∧
      ∃ d : Int, 1 ≤ d ∧ d ≤ 9 ∧
        boardGet (mmPass s key g r).1.board key = makeMove s.board key d := by
  induction g with
  | nil =>
    intro s r hw hc
    simp [mmPass] at hc
  | cons k rest ih =>
    intro s r hw hc
    simp only [mmPass] at hc ⊢
    by_cases hv : boardGet s.board k ≠ 0 ∧ boardGet s.board k ∈ domListD s.domain key
    · rw [if_pos hv] at hc ⊢
      obtain ⟨hfind, hu, h81, h0, hmem⟩ := keyFacts hw hv.2
      by_cases h1 : ((domListD s.domain key).erase (boardGet s.board k)).length = 1
      · rw [if_pos h1] at hc ⊢
        have hd0 := headD_mem_of_length_one h1
        have hd0dom : ((domListD s.domain key).erase (boardGet s.board k)).headD 0 ∈
            domListD s.domain key := List.erase_subset _ _ hd0
        have hd0b := hw.dombound _ hmem _ hd0dom
        have hfst1 : (domSet s.domain key
            ((domListD s.domain key).erase (boardGet s.board k))).map Prod.fst
            = s.unresolved := by
          rw [domSet_map_fst]
          exact hw.domkeys
        refine ⟨?_, ?_, ?_⟩
        · intro hkin
          simp only [commitCell] at hkin
          exact absurd ((hw.unodup.mem_erase_iff).mp hkin).1 (by simp)
        · simp only [commitCell]
          apply domFind_domErase_self
          rw [hfst1]
          exact hw.unodup
        · refine ⟨((domListD s.domain key).erase (boardGet s.board k)).headD 0,
            hd0b.1, hd0b.2, ?_⟩
          simp only [commitCell]
          exact boardGet_set_self _ _ (by rw [hw.len81]; exact h81)
      · rw [if_neg h1] at hc ⊢
        obtain ⟨hw1, _⟩ := step_set_preserve hw hv.2 h1
        exact ih _ true hw1 hc
    · rw [if_neg hv] at hc ⊢
      exact ih s r hw hc

/-- Claim C1 (amended): when `solve` fails, `backtracking` returns the
same board object, which the top-level `ac3` run has mutated in place
(`Sudoku.__init__` stores the caller's dict by reference).  The returned
board equals the post-propagation board; every nonzero input cell keeps
its input value; and whenever top-level propagation commits nothing to
the board, the original grid is returned unchanged. -/
theorem claim_C1 (b : List Int) (hb : b.length = 81)
    (hfail : (solveS (mkSudoku b)).1 = none) :
    backtracking b = (ac3 (mkSudoku b)).board ∧
    (∀ k, boardGet b k ≠ 0 → boardGet (backtracking b) k = boardGet b k) ∧
    ((ac3 (mkSudoku b)).board = b → backtracking b = b) := by
  refine ⟨backtracking_eq_of_none hfail, backtracking_pres hb, ?_⟩
  intro he
  rw [backtracking_eq_of_none hfail, he]

set_option maxRecDepth 100000 in
/-- Claim C1 counterexample: on `bInval` the solver fails, yet the board
`backtracking` returns differs from the input — the top-level `ac3` run
wrote the sentinel `-1` into cell A1 of the caller's board. -/
theorem claim_C1_cex :
    (solveS (mkSudoku bInval)).1 = none ∧ backtracking bInval ≠ bInval := by
  constructor
  · decide
  · decide

set_option maxRecDepth 100000 in
/-- Claim C1 witness: a failing board whose top-level propagation
commits nothing, so the fallback really is the unchanged input. -/
theorem claim_C1_witness :
    bStable.length = 81 ∧ (solveS (mkSudoku bStable)).1 = none ∧
    backtracking bStable = bStable :=
  ⟨by decide, by decide, (claim_C1 bStable (by decide) (by decide)).2.2 (by decide)⟩

/-- Claim C2 (amended): every board `is_solved` classifies as solved —
with the cell values in the range the solver can ever store, namely
`-1..9` — has each digit `1..9` exactly once in every row, column and
3x3 block, and no cell empty (`0`) or invalid (`-1`). -/
theorem claim_C2 (b : List Int) (hb : b.length = 81)
    (hrange : ∀ v ∈ b, -1 ≤ v ∧ v ≤ 9)
    (hsol : isSolvedB b = true) :
    ∀ g ∈ constraintsAll,
      (∀ d : Int, 1 ≤ d → d ≤ 9 → (g.map (boardGet b)).count d = 1) ∧
      (∀ k ∈ g, boardGet b k ≠ 0 ∧ boardGet b k ≠ -1) := by
  have hsol2 := hsol
  unfold isSolvedB at hsol2
  rw [Bool.and_eq_true, Bool.and_eq_true] at hsol2
  obtain ⟨⟨h0, hm1⟩, hall⟩ := hsol2
  rw [Bool.not_eq_true'] at h0 hm1
  rw [List.all_eq_true] at hall
  intro g hg
  constructor
  · exact group_count hb hrange h0 hm1 hg (hall g hg)
  · intro k hk
    have hshape := groups_shape
    rw [List.all_eq_true] at hshape
    have hgs := hshape g hg
    rw [Bool.and_eq_true, List.all_eq_true] at hgs
    have hk81 : k < 81 := by simpa using hgs.2 k hk
    have hmemb : boardGet b k ∈ b := by
      unfold boardGet
      rw [List.getD_eq_getElem b 0 (by omega)]
      exact List.getElem_mem _
    constructor
    · intro he
      rw [he] at hmemb
      simp at h0
      exact h0 hmemb
    · intro he
      rw [he] at hmemb
      simp at hm1
      exact hm1 hmemb

set_option maxRecDepth 100000 in
/-- Claim C2 counterexample (to the parenthetical "and hence for every
board returned by backtracking that differs from its input"): on
`bInval`, `backtracking` returns a board that differs from its input but
is not solved — it even contains the invalid sentinel. -/
theorem claim_C2_cex :
    backtracking bInval ≠ bInval ∧
    isSolvedB (backtracking bInval) = false ∧
    (backtracking bInval).contains (-1) = true := by
  refine ⟨by decide, by decide, by decide⟩

/-- Claim C2 witness: a fully solved concrete board. -/
theorem claim_C2_witness :
    bSolved.length = 81 ∧ (∀ v ∈ bSolved, -1 ≤ v ∧ v ≤ 9) ∧
    isSolvedB bSolved = true ∧
    ∀ g ∈ constraintsAll,
      (∀ d : Int, 1 ≤ d → d ≤ 9 → (g.map (boardGet bSolved)).count d = 1) ∧
      (∀ k ∈ g, boardGet bSolved k ≠ 0 ∧ boardGet bSolved k ≠ -1) :=
  ⟨by decide, by decide, by decide, claim_C2 bSolved (by decide) (by decide) (by decide)⟩

/-- Claim C3 (amended): if one further sweep would leave the post-`ac3`
state completely unchanged, that state is at the claimed fixpoint: no
unresolved cell's domain contains a digit assigned to another cell of
any of its three groups, and a further sweep removes nothing.  (In
general `ac3` can stop short of this fixpoint: a commit made during the
final sweep reports no change, see the counterexample.) -/
theorem claim_C3 (s0 : SState) (hstable : (sweep (ac3 s0)).1 = ac3 s0) :
    acFixpoint (ac3 s0) = true :=
  acFixpoint_of_sweep_eq hstable

set_option maxRecDepth 100000 in
/-- Claim C3 counterexample: after `ac3` on `bNoFix`, cell B1 is still
unresolved while its domain retains the digit `2` that the same final
sweep committed into its row/box peer B2 — the state is not a fixpoint,
and one more sweep would still remove candidates. -/
theorem claim_C3_cex :
    acFixpoint (ac3 (mkSudoku bNoFix)) = false ∧
    (sweep (ac3 (mkSudoku bNoFix))).1 ≠ ac3 (mkSudoku bNoFix) := by
  constructor
  · decide
  · decide

set_option maxRecDepth 100000 in
/-- Claim C3 witness: a board whose post-`ac3` state is fully stable,
hence at the fixpoint. -/
theorem claim_C3_witness :
    (sweep (ac3 (mkSudoku bStable))).1 = ac3 (mkSudoku bStable) ∧
    acFixpoint (ac3 (mkSudoku bStable)) = true :=
  ⟨by decide, claim_C3 (mkSudoku bStable) (by decide)⟩

/-- Claim C4 (confirmed): `make_move` returns the invalid sentinel `-1`
exactly when some cell in a group containing the key already holds the
candidate value, and otherwise returns the candidate; and whenever
`make_moves` commits a collapsed cell, the committed board value is
`make_move` of the remaining candidate (a digit `1..9`) evaluated
against the pre-commit board, and the cell is removed from both the
unresolved list and the domain.  No exception is involved: failure is
encoded in the board value. -/
theorem claim_C4 :
    (∀ (b : List Int) (key : Nat) (v : Int), 0 ≤ v →
      ((makeMove b key v = -1 ↔
        ∃ g ∈ constraintsAll, key ∈ g ∧ ∃ k ∈ g, boardGet b k = v) ∧
       (makeMove b key v = -1 ∨ makeMove b key v = v))) ∧
    (∀ (s : SState) (key : Nat) (g : List Nat) (r : Bool), WF s →
      (mmPass s key g r).2.2 = true →
      key ∉ (mmPass s key g r).1.unresolved ∧
      domFind (mmPass s key g r).1.domain key = none ∧
      ∃ d : Int, 1 ≤ d ∧ d ≤ 9 ∧
        boardGet (mmPass s key g r).1.board key = makeMove s.board key d) := by
  constructor
  · intro b key v hv
    exact ⟨mmGroups_neg1_iff b key v hv constraintsAll, makeMove_cases b key v⟩
  · intro s key g r hw hc
    exact mmPass_commit key g s r hw hc

set_option maxRecDepth 100000 in
/-- Claim C4 witness: on `bInval`, re-validating candidate `1` for cell
A1 hits the `1` already in its column and yields `-1`; on `bOneHole`,
the row pass commits cell A1 and removes it from the frontier. -/
theorem claim_C4_witness :
    (0 : Int) ≤ 1 ∧ makeMove bInval 0 1 = -1 ∧
    (mmPass (mkSudoku bOneHole) 0 (List.range 9) false).2.2 = true ∧
    0 ∉ (mmPass (mkSudoku bOneHole) 0 (List.range 9) false).1.unresolved :=
  ⟨by decide, ((claim_C4.1 bInval 0 1 (by decide)).1).mpr (by decide), by decide,
   (claim_C4.2 (mkSudoku bOneHole) 0 (List.range 9) false
     (wf_mkSudoku (by decide)) (by decide)).1⟩

/-- Claim C5 (amended): `solve` returns the failure result immediately
exactly when the post-propagation board is neither solved nor has an
empty cell; when empty cells remain it proceeds to guessing even if the
invalid sentinel is present (see the counterexample) — but every such
run still returns the failure result, because the sentinel persists in
every descendant state and no descendant passes `is_solved`. -/
theorem claim_C5 (b : List Int) (hb : b.length = 81)
    (hinv : hasInvalid (ac3 (mkSudoku b)) = true) :
    (solveS (mkSudoku b)).1 = none :=
  solveS_none_of_invalid (wf_mkSudoku hb) hinv

set_option maxRecDepth 100000 in
/-- Claim C5 counterexample: on `bInvalIncomplete` the post-propagation
state holds the sentinel `-1` while empty cells remain, and it is
classified Incomplete (`is_incomplete` true, `is_solved` false), so
`solve` takes the guessing branch rather than returning Unsatisfiable
immediately — guessing is not reserved for conflict-free states. -/
theorem claim_C5_cex :
    hasInvalid (ac3 (mkSudoku bInvalIncomplete)) = true ∧
    isIncomplete (ac3 (mkSudoku bInvalIncomplete)) = true ∧
    isSolved (ac3 (mkSudoku bInvalIncomplete)) = false := by
  refine ⟨by decide, by decide, by decide⟩

set_option maxRecDepth 100000 in
/-- Claim C5 witness: the sentinel-holding incomplete state still ends
in the failure result. -/
theorem claim_C5_witness :
    bInvalIncomplete.length = 81 ∧
    hasInvalid (ac3 (mkSudoku bInvalIncomplete)) = true ∧
    (solveS (mkSudoku bInvalIncomplete)).1 = none :=
  ⟨by decide, by decide, claim_C5 bInvalIncomplete (by decide) (by decide)⟩

/-- Claim C6 (confirmed): when the search branches, it selects the head
of the guess list sorted by `(domain size, key)` — an unresolved cell of
minimum remaining candidates, ties broken by the fixed row-major key
order used throughout the solve — and deletes that cell from the domain
and the unresolved frontier before trying its candidates. -/
theorem claim_C6 (s : SState) (n key : Nat) (rest : List (Nat × Nat)) (hw : WF s)
    (hsel : sortedGuessList s = (n, key) :: rest) :
    (∃ l, domFind s.domain key = some l ∧ l.length = n) ∧
    (∀ p ∈ s.domain, n < p.2.length ∨ (n = p.2.length ∧ key ≤ p.1)) ∧
    key ∉ (removeKey s key).unresolved ∧
    domFind (removeKey s key).domain key = none ∧
    (∀ fuel : Nat, expandGT (fuel + 1) s =
      tryVals (expandGT fuel) (removeKey s key) key (domListD s.domain key)) := by
  obtain ⟨hhead, hmin⟩ := sorted_head_min hsel
  obtain ⟨l, hlmem, hllen⟩ := guessList_mem_entry hhead
  refine ⟨⟨l, domFind_of_mem_nodup (fstNodup hw) hlmem, hllen⟩, ?_, ?_, ?_, ?_⟩
  · intro p hp
    have hpg : (p.2.length, p.1) ∈ guessList s := by
      unfold guessList
      exact List.mem_map.mpr ⟨p, hp, rfl⟩
    have hle := hmin _ hpg
    unfold guessLe at hle
    simp only [Bool.or_eq_true, Bool.and_eq_true, decide_eq_true_eq] at hle
    exact hle
  · intro hk
    simp only [removeKey] at hk
    exact absurd ((hw.unodup.mem_erase_iff).mp hk).1 (by simp)
  · simp only [removeKey]
    exact domFind_domErase_self (fstNodup hw)
  · intro fuel
    simp only [expandGT, hsel]

set_option maxRecDepth 100000 in
/-- Claim C6 witness: on the stable two-cell board the sorted guess list
starts with cell A1, which the selection removes from the frontier. -/
theorem claim_C6_witness :
    sortedGuessList (ac3 (mkSudoku bStable)) = (2, 0) :: [(2, 1)] ∧
    0 ∉ (removeKey (ac3 (mkSudoku bStable)) 0).unresolved ∧
    domFind (removeKey (ac3 (mkSudoku bStable)) 0).domain 0 = none :=
  ⟨by decide,
   (claim_C6 (ac3 (mkSudoku bStable)) 2 0 [(2, 1)]
     (ac3_preserve _ (wf_mkSudoku (by decide))).1 (by decide)).2.2.1,
   (claim_C6 (ac3 (mkSudoku bStable)) 2 0 [(2, 1)]
     (ac3_preserve _ (wf_mkSudoku (by decide))).1 (by decide)).2.2.2.1⟩

/-- Claim C7 (confirmed): in every reachable solver state — initial
state, post-`ac3` state, or branch state built by the search — a cell
has a `domain` entry exactly when its board value is empty (`0`), and
the `unresolved` list has exactly the domain's keys (in the same
order); in particular, when a commit or a branch assignment makes a
cell's board value a digit or the sentinel, its domain entry is gone. -/
theorem claim_C7 (s : SState) (hr : Reach s) :
    (∀ k, (∃ d, domFind s.domain k = some d) ↔ (k < 81 ∧ boardGet s.board k = 0)) ∧
    s.domain.map Prod.fst = s.unresolved := by
  have hw := reach_wf s hr
  refine ⟨?_, hw.domkeys⟩
  intro k
  rw [domFind_isSome_iff, hw.domkeys]
  exact hw.ures k

/-- Claim C7 witness: the invariant at the initial state of a concrete
board. -/
theorem claim_C7_witness :
    ((mkSudoku bOneHole).domain.map Prod.fst = (mkSudoku bOneHole).unresolved) ∧
    (∃ d, domFind (mkSudoku bOneHole).domain 0 = some d) :=
  ⟨(claim_C7 _ (Reach.init bOneHole (by decide))).2,
   ((claim_C7 _ (Reach.init bOneHole (by decide))).1 0).mpr (by decide)⟩

theorem mmPass_keylen (key : Nat) (g : List Nat) :
    ∀ (s : SState) (r : Bool), (mmPass s key g r).2.2 = false →
      (domListD (mmPass s key g r).1.domain key).length ≤ (domListD s.domain key).length ∧
      ((mmPass s key g r).2.1 = true → r = true ∨
        (domListD (mmPass s key g r).1.domain key).length < (domListD s.domain key).length) := by
  induction g with
  | nil =>
    intro s r hc
    exact ⟨Nat.le_refl _, fun hr => Or.inl (by simpa [mmPass] using hr)⟩
  | cons k rest ih =>
    intro s r hc
    simp only [mmPass] at hc ⊢
    by_cases hv : boardGet s.board k ≠ 0 ∧ boardGet s.board k ∈ domListD s.domain key
    · rw [if_pos hv] at hc ⊢
      have hfind := domFind_of_mem_domListD hv.2
      have hlt : ((domListD s.domain key).erase (boardGet s.board k)).length
          < (domListD s.domain key).length := by
        rw [List.length_erase_of_mem hv.2]
        exact Nat.sub_lt (List.length_pos.mpr (List.ne_nil_of_mem hv.2)) Nat.one_pos
      by_cases h1 : ((domListD s.domain key).erase (boardGet s.board k)).length = 1
      · rw [if_pos h1] at hc
        simp at hc
      · rw [if_neg h1] at hc ⊢
        have hkey1 : domListD (domSet s.domain key
            ((domListD s.domain key).erase (boardGet s.board k))) key
            = (domListD s.domain key).erase (boardGet s.board k) := by
          unfold domListD
          rw [domFind_domSet_self _ hfind]
          rfl
        obtain ⟨hle, _⟩ := ih _ true hc
        rw [hkey1] at hle
        exact ⟨Nat.le_trans hle (Nat.le_of_lt hlt), fun _ =>
          Or.inr (Nat.lt_of_le_of_lt hle hlt)⟩
    · rw [if_neg hv] at hc ⊢
      exact ih s r hc

theorem mmWhile_fuel_irrel (key : Nat) (g : List Nat) :
    ∀ (n : Nat) (s : SState) (m : Nat) (hc : Bool),
      (domListD s.domain key).length < n → (domListD s.domain key).length < m →
      mmWhile n s key g hc = mmWhile m s key g hc := by
  intro n
  induction n with
  | zero => intro s m hc hn; omega
  | succ n ih =>
    intro s m hc hn hm
    cases m with
    | zero => omega
    | succ m =>
      simp only [mmWhile]
      rcases hr : mmPass s key g false with ⟨s1, a, c⟩
      cases c
      · cases a
        · simp
        · simp only [if_true, Bool.false_eq_true, if_false]
          have hkl := mmPass_keylen key g s false (by rw [hr])
          rw [hr] at hkl
          simp only at hkl
          rcases hkl.2 (by trivial) with hfalse | hstrict
          · cases hfalse
          · exact ih s1 m true (by omega) (by omega)
      · simp

/-- Claim C8 (amended): propagation always terminates — with fuel beyond
the total candidate count, `ac3`'s sweep loop has already stabilised, so
the result is fuel-independent; each sweep either leaves the state
entirely unchanged or strictly decreases the total number of stored
candidates (it may do so without resolving any cell, see the
counterexample); and domains only ever shrink, never grow.  The inner
`make_moves` loop likewise terminates: beyond the size of the processed
cell's candidate list its fuel is irrelevant. -/
theorem claim_C8 :
    (∀ s : SState, (sweep s).1 = s ∨ domTotal (sweep s).1 < domTotal s) ∧
    (∀ (s : SState) (n : Nat), domTotal s < n → ac3Fuel n s = ac3 s) ∧
    (∀ (s : SState) (key : Nat) (g : List Nat) (n : Nat),
      (domListD s.domain key).length < n → mmWhile n s key g false = makeMoves s key g) ∧
    (∀ s : SState, WF s → ∀ k, domListD (sweep s).1.domain k ⊆ domListD s.domain k) := by
  refine ⟨?_, ?_, ?_, ?_⟩
  · intro s
    rcases sweep_cases s with ⟨heq, _⟩ | hlt
    · left
      rw [heq]
    · right
      exact hlt
  · intro s n hn
    exact ac3Fuel_irrel n s (domTotal s + 1) hn (by omega)
  · intro s key g n hn
    exact mmWhile_fuel_irrel key g n s ((domListD s.domain key).length + 1) false hn (by omega)
  · intro s hw
    exact (sweep_preserve s hw).2.1

set_option maxRecDepth 100000 in
/-- Claim C8 counterexample (to "each sweep either resolves at least one
cell or makes no change"): the first sweep on `bStable` changes the
state — it removes candidates — and reports a change, yet resolves no
cell: the unresolved list is untouched. -/
theorem claim_C8_cex :
    (sweep (mkSudoku bStable)).2 = true ∧
    (sweep (mkSudoku bStable)).1.unresolved = (mkSudoku bStable).unresolved ∧
    (sweep (mkSudoku bStable)).1 ≠ mkSudoku bStable := by
  refine ⟨by decide, by decide, by decide⟩

set_option maxRecDepth 100000 in
/-- Claim C8 witness: on a concrete board, generous fuel gives the same
`ac3` result, and a sweep only shrinks the domain of cell A1. -/
theorem claim_C8_witness :
    domTotal (mkSudoku bStable) < 100 ∧
    ac3Fuel 100 (mkSudoku bStable) = ac3 (mkSudoku bStable) ∧
    (domListD (mkSudoku bStable).domain 0).length < 20 ∧
    mmWhile 20 (mkSudoku bStable) 0 (List.range 9) false =
      makeMoves (mkSudoku bStable) 0 (List.range 9) ∧
    domListD (sweep (mkSudoku bStable)).1.domain 0 ⊆
      domListD (mkSudoku bStable).domain 0 :=
  ⟨by decide, claim_C8.2.1 (mkSudoku bStable) 100 (by decide), by decide,
   claim_C8.2.2.1 (mkSudoku bStable) 0 (List.range 9) 20 (by decide),
   claim_C8.2.2.2 (mkSudoku bStable) (wf_mkSudoku (by decide)) 0⟩

/-- Claim C9 (confirmed): given cells are never overwritten — for every
81-cell input grid, every cell holding a digit `1..9` holds exactly that
digit in the board `backtracking` returns, whether the solve succeeded
or fell back: propagation and search only ever write to cells whose
current value is `0`. -/
theorem claim_C9 (b : List Int) (k : Nat) (d : Int) (hb : b.length = 81)
    (hd : boardGet b k = d) (h1 : 1 ≤ d) (h9 : d ≤ 9) :
    boardGet (backtracking b) k = d := by
  rw [← hd]
  exact backtracking_pres hb k (by rw [hd]; omega)

set_option maxRecDepth 100000 in
/-- Claim C9 witness: the given `2` in cell A2 of `bInval` survives the
whole (failing, board-mutating) solve. -/
theorem claim_C9_witness :
    bInval.length = 81 ∧ boardGet bInval 1 = 2 ∧
    boardGet (backtracking bInval) 1 = 2 :=
  ⟨by decide, by decide,
   claim_C9 bInval 1 2 (by decide) (by decide) (by decide) (by decide)⟩

/-- Claim C10 (confirmed): in every reachable solver state no domain
entry is empty, and whenever the state is classified Incomplete (the
only case in which `expand_guess_tree` is invoked) the sorted guess list
is nonempty and the selected key's domain lookup yields a nonempty
candidate list — the unguarded `guess_list[0]` and `domain[key]` of the
source never fail. -/
theorem claim_C10 (s : SState) (hr : Reach s) :
    (∀ p ∈ s.domain, p.2 ≠ []) ∧
    (isIncomplete s = true →
      ∃ (n key : Nat) (rest : List (Nat × Nat)),
        sortedGuessList s = (n, key) :: rest ∧
        ∃ d, domFind s.domain key = some d ∧ d ≠ []) := by
  have hw := reach_wf s hr
  constructor
  · intro p hp
    have hlen := hw.domlen p hp
    intro he
    rw [he] at hlen
    simp at hlen
  · intro hinc
    have hd := domain_ne_nil_of_incomplete hw hinc
    have hs := sortedGuessList_ne_nil hd
    cases hsel : sortedGuessList s with
    | nil => exact absurd hsel hs
    | cons hd2 tl =>
      rcases hd2 with ⟨n, key⟩
      obtain ⟨hhead, _⟩ := sorted_head_min hsel
      obtain ⟨l, hlmem, hllen⟩ := guessList_mem_entry hhead
      refine ⟨n, key, tl, rfl, l, domFind_of_mem_nodup (fstNodup hw) hlmem, ?_⟩
      have hlen := hw.domlen _ hlmem
      intro he
      rw [he] at hlen
      simp at hlen

set_option maxRecDepth 100000 in
/-- Claim C10 witness: the selection succeeds on the reachable
incomplete state reached by propagation from `bStable`. -/
theorem claim_C10_witness :
    isIncomplete (ac3 (mkSudoku bStable)) = true ∧
    (∃ (n key : Nat) (rest : List (Nat × Nat)),
      sortedGuessList (ac3 (mkSudoku bStable)) = (n, key) :: rest ∧
      ∃ d, domFind (ac3 (mkSudoku bStable)).domain key = some d ∧ d ≠ []) :=
  ⟨by decide,
   (claim_C10 _ (Reach.prop _ (Reach.init bStable (by decide)))).2 (by decide)⟩
